import Mathlib

/-!
# Routing trie, dispatcher and middleware chain of `web_blaster`

A shallow embedding of `route.go`, `blaster.go`, `middleware.go` and the typed conversions
of `context.go`.

* Go `string` is `String`; the byte tests `s[0] == ':'` and the slices `s[1:]` are
  taken on the character list (`':'` and `'/'` are ASCII, so the first byte is `':'`
  exactly when the first character is).
* A Go pointer `*node` that may be nil is `Option (node H)`; a Go map is a function
  into `Option` (absent key = `none`).
* The trie is mutated in place through pointers in Go.  Here `getChild` says which
  slot of the parent a segment selects and which child sits there (a new one when
  the slot is empty), the rest of the walk runs on that child, and the result is
  stored back into the same slot.
* A run-time panic is `Except.error`.
-/

namespace web_blaster

/-- Run-time panics the embedded code can raise. -/
inductive Fault where
  | indexOutOfRange
  | sliceOutOfRange
  | nilDeref
  deriving DecidableEq, Repr

/-! ## `strings.Trim(s, "/")` and `strings.Split(s, "/")` -/

namespace strings

/-- Drop every leading `'/'`. -/
def trimLeft : List Char → List Char
  | [] => []
  | c :: cs => if c = '/' then trimLeft cs else c :: cs

/-- Drop every leading and every trailing `'/'`. -/
def trimChars (l : List Char) : List Char :=
  (trimLeft (trimLeft l).reverse).reverse

/-- Go `strings.Trim(s, "/")`. -/
def Trim (s : String) : String := ⟨trimChars s.data⟩

/-- Cut a character list at every `'/'`; the result always has at least one piece. -/
def splitChars : List Char → List (List Char)
  | [] => [[]]
  | c :: cs =>
    if c = '/' then [] :: splitChars cs
    else
      match splitChars cs with
      | [] => [[c]]
      | seg :: rest => (c :: seg) :: rest

/-- Go `strings.Split(s, "/")`. -/
def Split (s : String) : List String := (splitChars s.data).map String.mk

end strings

/-! ## The trie (`route.go`) -/

/-- Go `node`: one segment of the routing trie.  `H` is the type of handlers. -/
inductive node (H : Type) : Type where
  | mk (path : String) (children : String → Option (node H))
      (starChild : Option (node H)) (paramChild : Option (node H))
      (handler : Option H) (Route : String) : node H

/-- The three kinds of slot a parent has for a child. -/
inductive Edge where
  | lit (key : String)
  | star
  | param
  deriving DecidableEq, Repr

namespace node

variable {H : Type}

/-- Field `path`. -/
def path : node H → String
  | .mk p _ _ _ _ _ => p

/-- Field `children`. -/
def children : node H → String → Option (node H)
  | .mk _ c _ _ _ _ => c

/-- Field `starChild`. -/
def starChild : node H → Option (node H)
  | .mk _ _ s _ _ _ => s

/-- Field `paramChild`. -/
def paramChild : node H → Option (node H)
  | .mk _ _ _ p _ _ => p

/-- Field `handler` (`none` is the nil func). -/
def handler : node H → Option H
  | .mk _ _ _ _ h _ => h

/-- Field `Route`. -/
def Route : node H → String
  | .mk _ _ _ _ _ r => r

/-- Go `&node{path: p}`: every other field has its zero value. -/
def fresh (p : String) : node H := .mk p (fun _ => none) none none none ""

/-- The child in a given slot. -/
def child (n : node H) : Edge → Option (node H)
  | .lit key => n.children key
  | .star => n.starChild
  | .param => n.paramChild

/-- Store a child into a slot (`n.children[key] = c`, `n.starChild = c`, `n.paramChild = c`). -/
def setChild : node H → Edge → node H → node H
  | .mk p cs s q h r, .lit key, c => .mk p (fun k => if k = key then some c else cs k) s q h r
  | .mk p cs _ q h r, .star, c => .mk p cs (some c) q h r
  | .mk p cs s _ h r, .param, c => .mk p cs s (some c) h r

/-- Assignment `n.handler = h`. -/
def setHandler : node H → Option H → node H
  | .mk p cs s q _ r, h => .mk p cs s q h r

/-- Assignment `n.Route = route`. -/
def setRoute : node H → String → node H
  | .mk p cs s q h _, route => .mk p cs s q h route

/-- Go `getChild`: the slot selected by the segment and the child found there, a new
`&node{path: path}` when the slot is empty.  Indexing `path[0]` of an empty segment panics. -/
def getChild (n : node H) (path : String) : Except Fault (Edge × node H) :=
  if path = "*" then
    match n.starChild with
    | none => .ok (.star, fresh path)
    | some c => .ok (.star, c)
  else
    match path.data with
    | [] => .error .indexOutOfRange
    | c0 :: _ =>
      if c0 = ':' then
        match n.paramChild with
        | none => .ok (.param, fresh path)
        | some c => .ok (.param, c)
      else
        match n.children path with
        | none => .ok (.lit path, fresh path)
        | some c => .ok (.lit path, c)

/-- The loop of `addRoute` (`for _, s := range segs`) followed by `tree.Route = path` and the
deferred `tree.handler = handlerFunc`, both on the node the walk ended at. -/
def addWalk (handlerFunc : Option H) (route : String) : node H → List String → Except Fault (node H)
  | tree, [] => .ok ((tree.setRoute route).setHandler handlerFunc)
  | tree, s :: segs =>
    match tree.getChild s with
    | .error f => .error f
    | .ok (e, c) =>
      match addWalk handlerFunc route c segs with
      | .error f => .error f
      | .ok c' => .ok (tree.setChild e c')

end node

/-- Go `matchInfo`: the node found and the path parameters bound on the way
(`[]` is the nil map). -/
structure matchInfo (H : Type) where
  n : node H
  param : List (String × String)

/-- Go `router`: one tree per method. -/
structure router (H : Type) where
  trees : String → Option (node H)

/-- Go `newRoute`. -/
def newRoute {H : Type} : router H := ⟨fun _ => none⟩

namespace router

variable {H : Type}

/-- Assignment `r.trees[method] = tree`. -/
def setTree (r : router H) (method : String) (tree : node H) : router H :=
  ⟨fun m => if m = method then some tree else r.trees m⟩

/-- Go `router.addRoute`. -/
def addRoute (r : router H) (method path : String) (handlerFunc : Option H) :
    Except Fault (router H) :=
  let tree : node H :=
    match r.trees method with
    | some t => t
    | none => node.fresh "/"
  if path = "/" then
    .ok (r.setTree method (tree.setHandler handlerFunc))
  else
    let path := strings.Trim path
    let segs := strings.Split path
    match node.addWalk handlerFunc path tree segs with
    | .error f => .error f
    | .ok tree' => .ok (r.setTree method tree')

/-- The loop of `findRoute` (`for _, seg := range segs`) and the return after it.  The guard
`seg[0] == ':' && tree.paramChild != nil` is the `if` that yields the param child. -/
def findWalk : node H → List String → Except Fault (Option (matchInfo H) × Bool)
  | tree, [] => .ok (some ⟨tree, []⟩, tree.handler.isSome)
  | tree, seg :: segs =>
    match tree.children seg with
    | some child => findWalk child segs
    | none =>
      match seg.data with
      | [] => .error .indexOutOfRange
      | c0 :: rest =>
        match (if c0 = ':' then tree.paramChild else none) with
        | some pc =>
          match pc.path.data with
          | [] => .error .sliceOutOfRange
          | _ :: name => .ok (some ⟨pc, [(String.mk name, String.mk rest)]⟩, true)
        | none =>
          match tree.starChild with
          | some sc => findWalk sc segs
          | none => .ok (none, false)

/-- Go `router.findRoute`. -/
def findRoute (r : router H) (method path : String) :
    Except Fault (Option (matchInfo H) × Bool) :=
  match r.trees method with
  | none => .ok (none, false)
  | some tree =>
    if path = "/" then .ok (some ⟨tree, []⟩, true)
    else findWalk tree (strings.Split (strings.Trim path))

end router

/-! ## Dispatcher and middleware chain (`blaster.go`, `middleware.go`) -/

/-- Go `http.Request`, as far as the code reads it: `req.Method` and `req.URL.String()`. -/
structure Request where
  Method : String
  URL : String

/-- One call on the `http.ResponseWriter`. -/
inductive ResOp where
  | WriteHeader (code : Nat)
  | Write (body : String)
  deriving DecidableEq, Repr

/-- Go `Context`; `res` is the sequence of calls made on the response writer so far. -/
structure Context where
  req : Request
  res : List ResOp
  pathValue : List (String × String)
  route : String

/-- Go `HandlerFunc`: a handler acts on the context, or panics. -/
abbrev HandlerFunc : Type := Context → Except Fault Context

/-- Go `Middleware`. -/
abbrev Middleware : Type := HandlerFunc → HandlerFunc

/-- Go `HTTPServe`: the embedded `*router` and the registered middlewares. -/
structure HTTPServe where
  router : router HandlerFunc
  mw : List Middleware

/-- Go `NewHTTPServe`. -/
def NewHTTPServe : HTTPServe := ⟨newRoute, []⟩

namespace HTTPServe

/-- Go `HTTPServe.Use`. -/
def Use (h : HTTPServe) (mw : List Middleware) : HTTPServe := { h with mw := mw }

/-- Go `HTTPServe.addRoute`, promoted from the embedded router. -/
def addRoute (h : HTTPServe) (method path : String) (handlerFunc : Option HandlerFunc) :
    Except Fault HTTPServe :=
  match h.router.addRoute method path handlerFunc with
  | .error f => .error f
  | .ok r => .ok { h with router := r }

/-- Go `HTTPServe.serve`.  Calling a nil `HandlerFunc` panics. -/
def serve (h : HTTPServe) (ctx : Context) : Except Fault Context :=
  match h.router.findRoute ctx.req.Method ctx.req.URL with
  | .error f => .error f
  | .ok (mi, ok) =>
    if !ok then
      .ok { ctx with res := ctx.res ++ [.WriteHeader 404, .Write "404 PAGE NOT FOUND!"] }
    else
      match mi with
      | none => .error .nilDeref
      | some mi =>
        let ctx := { ctx with pathValue := mi.param, route := mi.n.path }
        match mi.n.handler with
        | none => .error .nilDeref
        | some handler => handler ctx

/-- The loop `for i := len(h.mw) - 1; i >= 0; i-- { root = h.mw[i](root) }` of `ServeHTTP`;
the counter is `i + 1`. -/
def wrap (mw : List Middleware) : Nat → HandlerFunc → HandlerFunc
  | 0, root => root
  | i + 1, root =>
    match mw[i]? with
    | some m => wrap mw i (m root)
    | none => wrap mw i root

/-- Go `HTTPServe.ServeHTTP`. -/
def ServeHTTP (h : HTTPServe) (res : List ResOp) (req : Request) : Except Fault Context :=
  let ctx : Context := { req := req, res := res, pathValue := [], route := "" }
  let root := wrap h.mw h.mw.length h.serve
  root ctx

end HTTPServe

/-! ## Typed conversion of a held value (`context.go`) -/

/-- Go `error` values the conversions can return: one held by the value, or the two errors
of `strconv`. -/
inductive GoError where
  | held (msg : String)
  | ErrSyntax
  | ErrRange
  deriving DecidableEq, Repr

namespace strconv

/-- The value of a decimal digit character, if it is one. -/
def digit (c : Char) : Option Nat :=
  if '0' ≤ c ∧ c ≤ '9' then some (c.toNat - '0'.toNat) else none

/-- The loop of Go `strconv.ParseUint(s, 10, 64)` on the characters left, `n` being the
number read so far: it returns at the first character that is not a digit (syntax error,
value `0`) and at the first digit with which the number leaves `uint64` (range error, value
`2^64 - 1`). -/
def parseUintLoop : List Char → Nat → Nat × Option GoError
  | [], n => (n, none)
  | c :: cs, n =>
    match digit c with
    | none => (0, some .ErrSyntax)
    | some d =>
      if n ≥ (2 ^ 64 - 1) / 10 + 1 then (2 ^ 64 - 1, some .ErrRange)
      else if n * 10 + d > 2 ^ 64 - 1 then (2 ^ 64 - 1, some .ErrRange)
      else parseUintLoop cs (n * 10 + d)

/-- Go `strconv.ParseUint(s, 10, 64)` of the standard library; the empty text is a syntax
error. -/
def ParseUint (cs : List Char) : Nat × Option GoError :=
  match cs with
  | [] => (0, some .ErrSyntax)
  | _ :: _ => parseUintLoop cs 0

/-- Go `strconv.ParseInt(s, 10, 64)` of the standard library: it picks off a leading sign,
calls `ParseUint`, passes on an error other than the range error with value `0`, and gives
the nearest bound of `int64` and `ErrRange` for a number outside `int64`. -/
def ParseInt (s : String) : Int × Option GoError :=
  match s.data with
  | [] => (0, some .ErrSyntax)
  | c :: cs =>
    let neg : Bool := decide (c = '-')
    let rest : List Char := if c = '+' ∨ c = '-' then cs else c :: cs
    match ParseUint rest with
    | (_, some .ErrSyntax) => (0, some .ErrSyntax)
    | (_, some (.held msg)) => (0, some (.held msg))
    | (un, _) =>
      if neg = false ∧ un ≥ 2 ^ 63 then ((2 ^ 63 : Int) - 1, some .ErrRange)
      else if neg = true ∧ un > 2 ^ 63 then (-(2 ^ 63 : Int), some .ErrRange)
      else if neg then (-(un : Int), none)
      else ((un : Int), none)

end strconv

/-- Go `value`: the text, or the error met while getting it. -/
structure value where
  val : String
  err : Option GoError

namespace value

/-- Go `value.ToUint64`; its result type is `int64`. -/
def ToUint64 (v : value) : Int × Option GoError :=
  match v.err with
  | some e => (0, some e)
  | none => strconv.ParseInt v.val

/-- Go `value.ToInt64`. -/
def ToInt64 (v : value) : Int × Option GoError :=
  match v.err with
  | some e => (0, some e)
  | none => strconv.ParseInt v.val

end value

/-! ## Vocabulary of the statements -/

/-- The slot `getChild` selects for a segment. -/
def edgeOf (s : String) : Edge :=
  if s = "*" then .star
  else
    match s.data with
    | [] => .lit s
    | c0 :: _ => if c0 = ':' then .param else .lit s

/-- The segment begins with `':'`. -/
def isParam (s : String) : Bool :=
  match s.data with
  | [] => false
  | c0 :: _ => decide (c0 = ':')

/-- The segments `addRoute` and `findRoute` walk for a path other than `"/"`. -/
def segsOf (path : String) : List String := strings.Split (strings.Trim path)

/-- The path is `"/"` or all its segments are non-empty. -/
def okPath (path : String) : Prop := path = "/" ∨ ∀ s ∈ segsOf path, s ≠ ""

instance (path : String) : Decidable (okPath path) := by
  unfold okPath; infer_instance

/-- The slots from the root to the node a registration of the path ends at. -/
def target (path : String) : List Edge :=
  if path = "/" then [] else (segsOf path).map edgeOf

namespace node

variable {H : Type}

/-- The node reached from `n` through the given slots. -/
def follow : node H → List Edge → Option (node H)
  | n, [] => some n
  | n, e :: es =>
    match n.child e with
    | none => none
    | some c => follow c es

/-- Shape of a trie built by `getChild`: every child sits in the slot its own segment text
selects (so no literal key is `"*"` or begins with `':'`, the wildcard child is `"*"`, the
param child begins with `':'`), and every child has that shape too. -/
inductive Good : node H → Prop where
  | mk (n : node H)
      (hfit : ∀ e c, n.child e = some c → edgeOf c.path = e)
      (hsub : ∀ e c, n.child e = some c → Good c) : Good n

end node

/-- One `addRoute` call with a non-nil handler. -/
structure Registration (H : Type) where
  method : String
  path : String
  handler : H

namespace router

variable {H : Type}

/-- The registrations of a program, made in order (the loop of `Test_router_addRoute`). -/
def register (r : router H) : List (Registration H) → Except Fault (router H)
  | [] => .ok r
  | reg :: regs =>
    match r.addRoute reg.method reg.path (some reg.handler) with
    | .error f => .error f
    | .ok r' => register r' regs

/-- The slots `findRoute`'s loop goes through when it consumes every segment through literal
and wildcard children (`none` when it stops, panics or returns through the param child). -/
def walkEdges : node H → List String → Option (List Edge)
  | _, [] => some []
  | tree, seg :: segs =>
    match tree.children seg with
    | some child => (walkEdges child segs).map (fun es => Edge.lit seg :: es)
    | none =>
      match seg.data with
      | [] => none
      | c0 :: _ =>
        match (if c0 = ':' then tree.paramChild else none) with
        | some _ => none
        | none =>
          match tree.starChild with
          | some sc => (walkEdges sc segs).map (fun es => Edge.star :: es)
          | none => none

/-- The node of a method's tree at the given slots. -/
def nodeAt (r : router H) (method : String) (es : List Edge) : Option (node H) :=
  match r.trees method with
  | none => none
  | some tree => tree.follow es

/-- Shape of a router built by `addRoute`: every root is `"/"`, has no route text, and its
tree is well shaped. -/
def Wf (r : router H) : Prop :=
  ∀ m t, r.trees m = some t → t.path = "/" ∧ t.Route = "" ∧ t.Good

end router

/-! ## The pattern syntax of the specification -/

/-- A pattern segment matches a request segment under the pattern syntax named by the claim:
`*` matches any one segment, any other text matches itself. -/
def segMatchesSpec (pat seg : String) : Bool :=
  pat == "*" || pat == seg

/-- A pattern matches a path segment by segment: as many segments, each matching. -/
def patternMatchesSpec : List String → List String → Bool
  | [], [] => true
  | pat :: pats, seg :: segs => segMatchesSpec pat seg && patternMatchesSpec pats segs
  | _, _ => false

/-! ## Inputs of the examples -/

/-- The registrations of `Test_router_addRoute`, with handler `0`. -/
def testRegs : List (Registration Nat) :=
  [⟨"GET", "/", 0⟩, ⟨"GET", "/user", 0⟩, ⟨"GET", "user", 0⟩, ⟨"GET", "/home/", 0⟩,
   ⟨"GET", "/home/*/detail", 0⟩, ⟨"GET", "/home/:order_id", 0⟩,
   ⟨"GET", "/user/detail/profile", 0⟩, ⟨"GET", "/user/*", 0⟩,
   ⟨"POST", "/user/detail/profile", 0⟩, ⟨"GET", "/business/order/detail/part", 0⟩]

/-- A middleware that records: it writes `pre`, calls the inner handler, and when that
returns writes `post`. -/
def recorder (pre post : String) : Middleware := fun next c =>
  match next { c with res := c.res ++ [.Write pre] } with
  | .error f => .error f
  | .ok c' => .ok { c' with res := c'.res ++ [.Write post] }

/-- A handler that records `t`. -/
def recordHandler (t : String) : HandlerFunc := fun c =>
  .ok { c with res := c.res ++ [.Write t] }

/-- A server with the one route `GET /`, whose handler records `"t"`. -/
def recServer : HTTPServe :=
  match NewHTTPServe.addRoute "GET" "/" (some (recordHandler "t")) with
  | .ok s => s
  | .error _ => NewHTTPServe

/-- The registrations of the test's intermediate-node case: `/user`,
`/user/detail/profile` and `/user/*` under GET. -/
def userRegs : List (Registration Nat) :=
  [⟨"GET", "/user", 0⟩, ⟨"GET", "/user/detail/profile", 0⟩, ⟨"GET", "/user/*", 0⟩]

/-- The router a list of registrations builds (the empty router if one of them panics). -/
def routerOf {H : Type} (regs : List (Registration H)) : router H :=
  match (newRoute : router H).register regs with
  | .ok r => r
  | .error _ => newRoute

/-- The tree of a method (a bare root when the method has none). -/
def treeOf {H : Type} (r : router H) (method : String) : node H :=
  match r.trees method with
  | some t => t
  | none => node.fresh "/"

/-- The router with only `/home/:order_id` registered under GET. -/
def orderRouter {H : Type} (h : H) : router H :=
  routerOf [⟨"GET", "/home/:order_id", h⟩]

/-- A server whose route table is built by the given registrations, without middleware. -/
def serverOf (regs : List (Registration HandlerFunc)) : HTTPServe :=
  ⟨routerOf regs, []⟩

/-- A handler that returns the context it was called with, unchanged. -/
def echoHandler : HandlerFunc := fun c => .ok c

/-- The context `ServeHTTP` makes for a request, before anything is written. -/
def newContext (method url : String) : Context :=
  { req := ⟨method, url⟩, res := [], pathValue := [], route := "" }

/-- The text `/x_1/.../x_k` for the segments `x_1 .. x_k`. -/
def subPath : List String → String
  | [] => ""
  | x :: xs => "/" ++ x ++ subPath xs

/-- The wildcard node `addRoute(m, "/a/*", h)` creates. -/
def wildLeaf {H : Type} (h : H) : node H :=
  ((node.fresh "*").setRoute "a/*").setHandler (some h)

/-- The node `a` that `addRoute(m, "/a/*", h)` creates. -/
def wildParent {H : Type} (h : H) : node H :=
  (node.fresh "a").setChild .star (wildLeaf h)

/-- The tree `addRoute(m, "/a/*", h)` builds for a method that had none. -/
def wildRoot {H : Type} (h : H) : node H :=
  (node.fresh "/").setChild (.lit "a") (wildParent h)

/-- A middleware that answers by itself: it writes `msg` and never calls the inner handler
it is given. -/
def denyAll (msg : String) : Middleware := fun _ c =>
  .ok { c with res := c.res ++ [.Write msg] }

/-- A handler that panics whenever it is called. -/
def panicHandler : HandlerFunc := fun _ => .error .nilDeref

/-- The literal child of a node under a key (a bare node when there is none). -/
def litChild {H : Type} (n : node H) (key : String) : node H :=
  match n.children key with
  | some c => c
  | none => node.fresh ""

/-- The registrations `/a/b/c` and `/a/*/d` under GET. -/
def greedyRegs : List (Registration Nat) :=
  [⟨"GET", "/a/b/c", 0⟩, ⟨"GET", "/a/*/d", 1⟩]

end web_blaster

/-! # Proofs -/

namespace web_blaster

/-! ## Field lemmas -/

section fields

variable {H : Type}

@[simp]
theorem node.path_setChild (n : node H) (e : Edge) (c : node H) :
    (n.setChild e c).path = n.path := by
  cases n; cases e <;> rfl

@[simp]
theorem node.handler_setChild (n : node H) (e : Edge) (c : node H) :
    (n.setChild e c).handler = n.handler := by
  cases n; cases e <;> rfl

@[simp]
theorem node.Route_setChild (n : node H) (e : Edge) (c : node H) :
    (n.setChild e c).Route = n.Route := by
  cases n; cases e <;> rfl

theorem node.child_setChild (n : node H) (e e' : Edge) (c : node H) :
    (n.setChild e c).child e' = if e' = e then some c else n.child e' := by
  cases n; cases e <;> cases e' <;> simp [node.setChild, node.child, node.children,
    node.starChild, node.paramChild]

@[simp]
theorem node.child_setChild_self (n : node H) (e : Edge) (c : node H) :
    (n.setChild e c).child e = some c := by
  simp [node.child_setChild]

theorem node.child_setChild_ne (n : node H) {e e' : Edge} (c : node H) (h : e' ≠ e) :
    (n.setChild e c).child e' = n.child e' := by
  simp [node.child_setChild, h]

@[simp]
theorem node.path_setHandler (n : node H) (h : Option H) :
    (n.setHandler h).path = n.path := by
  cases n; rfl

@[simp]
theorem node.handler_setHandler (n : node H) (h : Option H) :
    (n.setHandler h).handler = h := by
  cases n; rfl

@[simp]
theorem node.Route_setHandler (n : node H) (h : Option H) :
    (n.setHandler h).Route = n.Route := by
  cases n; rfl

@[simp]
theorem node.child_setHandler (n : node H) (h : Option H) (e : Edge) :
    (n.setHandler h).child e = n.child e := by
  cases n; cases e <;> rfl

@[simp]
theorem node.path_setRoute (n : node H) (r : String) :
    (n.setRoute r).path = n.path := by
  cases n; rfl

@[simp]
theorem node.handler_setRoute (n : node H) (r : String) :
    (n.setRoute r).handler = n.handler := by
  cases n; rfl

@[simp]
theorem node.Route_setRoute (n : node H) (r : String) :
    (n.setRoute r).Route = r := by
  cases n; rfl

@[simp]
theorem node.child_setRoute (n : node H) (r : String) (e : Edge) :
    (n.setRoute r).child e = n.child e := by
  cases n; cases e <;> rfl

@[simp]
theorem node.path_fresh (p : String) : (node.fresh p : node H).path = p := rfl

@[simp]
theorem node.handler_fresh (p : String) : (node.fresh p : node H).handler = none := rfl

@[simp]
theorem node.Route_fresh (p : String) : (node.fresh p : node H).Route = "" := rfl

@[simp]
theorem node.child_fresh (p : String) (e : Edge) : (node.fresh p : node H).child e = none := by
  cases e <;> rfl

theorem node.children_eq_child (n : node H) (k : String) : n.children k = n.child (.lit k) := rfl

theorem node.starChild_eq_child (n : node H) : n.starChild = n.child .star := rfl

theorem node.paramChild_eq_child (n : node H) : n.paramChild = n.child .param := rfl

/-- Two nodes with the same fields are equal. -/
theorem node.ext_fields {a b : node H} (hp : a.path = b.path) (hc : ∀ e, a.child e = b.child e)
    (hh : a.handler = b.handler) (hr : a.Route = b.Route) : a = b := by
  cases a with
  | mk p1 c1 s1 q1 h1 r1 =>
    cases b with
    | mk p2 c2 s2 q2 h2 r2 =>
      have hs := hc .star
      have hq := hc .param
      have hl : c1 = c2 := funext fun k => hc (.lit k)
      simp only [node.child, node.starChild, node.paramChild, node.path, node.handler,
        node.Route] at hs hq hp hh hr
      subst hp hs hq hl hh hr
      rfl

@[simp]
theorem router.trees_setTree (r : router H) (m m' : String) (t : node H) :
    (r.setTree m t).trees m' = if m' = m then some t else r.trees m' := rfl

theorem router.ext_trees {a b : router H} (h : ∀ m, a.trees m = b.trees m) : a = b := by
  cases a; cases b
  simp only [router.mk.injEq]
  exact funext h

end fields

/-! ## Segments and slots -/

theorem String.data_ne_of_ne_empty {s : String} (h : s ≠ "") : s.data ≠ [] := by
  intro hd
  apply h
  cases s
  simp_all

theorem edgeOf_star : edgeOf "*" = .star := by decide

theorem edgeOf_ne_lit_star (s : String) : edgeOf s ≠ .lit "*" := by
  unfold edgeOf
  split
  · simp
  · rename_i hs
    split
    · simp; exact hs
    · split
      · simp
      · simp; exact hs

theorem edgeOf_lit_iff {s k : String} : edgeOf s = .lit k ↔ (s = k ∧ s ≠ "*" ∧ isParam s = false) := by
  unfold edgeOf isParam
  split
  · rename_i hs; simp [hs]
  · rename_i hs
    split
    · simp [hs]
    · split <;> simp_all

theorem edgeOf_param_iff {s : String} : edgeOf s = .param ↔ isParam s = true := by
  unfold edgeOf isParam
  split
  · rename_i hs; subst hs; decide
  · split
    · simp
    · split <;> simp_all

theorem edgeOf_star_iff {s : String} : edgeOf s = .star ↔ s = "*" := by
  unfold edgeOf
  split
  · simp_all
  · rename_i hs
    split
    · simp [hs]
    · split <;> simp [hs]

/-- What `getChild` returns on a non-empty segment. -/
theorem node.getChild_of_ne {H : Type} (n : node H) {s : String} (hs : s ≠ "") :
    n.getChild s = .ok (edgeOf s, (n.child (edgeOf s)).getD (node.fresh s)) := by
  have hd := String.data_ne_of_ne_empty hs
  unfold node.getChild edgeOf
  split
  · cases h : n.starChild <;> simp [node.child, h]
  · cases hdd : s.data with
    | nil => exact absurd hdd hd
    | cons c0 cs =>
      simp only
      split
      · cases h : n.paramChild <;> simp [node.child, h]
      · cases h : n.children s <;> simp [node.child, h]

/-- On an empty segment `getChild` panics. -/
theorem node.getChild_empty {H : Type} (n : node H) :
    n.getChild "" = .error .indexOutOfRange := by
  unfold node.getChild
  rw [if_neg (by decide)]

/-! ## The registration walk -/

section addWalk

variable {H : Type}

theorem node.addWalk_nil (h : Option H) (R : String) (n : node H) :
    node.addWalk h R n [] = .ok ((n.setRoute R).setHandler h) := rfl

/-- One step of the registration walk on a non-empty segment. -/
theorem node.addWalk_cons (h : Option H) (R : String) (n : node H) {s : String} (hs : s ≠ "")
    (segs : List String) :
    node.addWalk h R n (s :: segs) =
      match node.addWalk h R ((n.child (edgeOf s)).getD (node.fresh s)) segs with
      | .error f => .error f
      | .ok c' => .ok (n.setChild (edgeOf s) c') := by
  rw [node.addWalk, node.getChild_of_ne n hs]

/-- A registration walk that returns has seen only non-empty segments. -/
theorem node.addWalk_ok_ne (h : Option H) (R : String) (n : node H) (s : String)
    (segs : List String) {n' : node H} (hw : node.addWalk h R n (s :: segs) = .ok n') : s ≠ "" := by
  intro hs
  subst hs
  rw [node.addWalk, node.getChild_empty] at hw
  cases hw

/-- The registration walk returns on non-empty segments. -/
theorem node.addWalk_total (h : Option H) (R : String) (segs : List String)
    (hne : ∀ s ∈ segs, s ≠ "") (n : node H) : ∃ n', node.addWalk h R n segs = .ok n' := by
  induction segs generalizing n with
  | nil => exact ⟨_, rfl⟩
  | cons s segs ih =>
    have hs : s ≠ "" := hne s (List.mem_cons_self _ _)
    obtain ⟨c', hc'⟩ := ih (fun x hx => hne x (List.mem_cons_of_mem _ hx))
      ((n.child (edgeOf s)).getD (node.fresh s))
    exact ⟨n.setChild (edgeOf s) c', by rw [node.addWalk_cons h R n hs, hc']⟩

/-- Inversion of one step of a registration walk that returned. -/
theorem node.addWalk_cons_inv (h : Option H) (R : String) (n : node H) (s : String)
    (segs : List String) {n' : node H} (hw : node.addWalk h R n (s :: segs) = .ok n') :
    ∃ c', node.addWalk h R ((n.child (edgeOf s)).getD (node.fresh s)) segs = .ok c' ∧
      n' = n.setChild (edgeOf s) c' := by
  have hs := node.addWalk_ok_ne h R n s segs hw
  rw [node.addWalk_cons h R n hs] at hw
  cases hc : node.addWalk h R ((n.child (edgeOf s)).getD (node.fresh s)) segs with
  | error f => rw [hc] at hw; cases hw
  | ok c' =>
    rw [hc] at hw
    simp only [Except.ok.injEq] at hw
    exact ⟨c', rfl, hw.symm⟩

/-- The walk does not change the segment text of the node it starts from. -/
theorem node.addWalk_path (h : Option H) (R : String) (segs : List String) (n n' : node H)
    (hw : node.addWalk h R n segs = .ok n') : n'.path = n.path := by
  cases segs with
  | nil =>
    rw [node.addWalk_nil] at hw
    simp only [Except.ok.injEq] at hw
    subst hw
    simp
  | cons s segs =>
    obtain ⟨c', -, rfl⟩ := node.addWalk_cons_inv h R n s segs hw
    simp

/-- After the walk the node at the registered slots carries the handler and the route. -/
theorem node.addWalk_follow_target (h : Option H) (R : String) (segs : List String)
    (n n' : node H) (hw : node.addWalk h R n segs = .ok n') :
    ∃ t, n'.follow (segs.map edgeOf) = some t ∧ t.handler = h ∧ t.Route = R := by
  induction segs generalizing n n' with
  | nil =>
    rw [node.addWalk_nil] at hw
    simp only [Except.ok.injEq] at hw
    subst hw
    exact ⟨_, rfl, by simp, by simp⟩
  | cons s segs ih =>
    obtain ⟨c', hc', rfl⟩ := node.addWalk_cons_inv h R n s segs hw
    obtain ⟨t, ht, hh, hr⟩ := ih _ _ hc'
    refine ⟨t, ?_, hh, hr⟩
    simp [node.follow, ht]

/-- The walk keeps handler and route of every node that is not its target. -/
theorem node.addWalk_follow_other (h : Option H) (R : String) (segs : List String)
    (n n' : node H) (hw : node.addWalk h R n segs = .ok n') (es : List Edge)
    (hes : es ≠ segs.map edgeOf) (t : node H) (ht : n.follow es = some t) :
    ∃ t', n'.follow es = some t' ∧ t'.handler = t.handler ∧ t'.Route = t.Route ∧
      t'.path = t.path := by
  induction segs generalizing n n' es with
  | nil =>
    rw [node.addWalk_nil] at hw
    simp only [Except.ok.injEq] at hw
    subst hw
    cases es with
    | nil => exact absurd rfl hes
    | cons e es =>
      refine ⟨t, ?_, rfl, rfl, rfl⟩
      simpa [node.follow] using ht
  | cons s segs ih =>
    obtain ⟨c', hc', rfl⟩ := node.addWalk_cons_inv h R n s segs hw
    cases es with
    | nil =>
      simp only [node.follow, Option.some.injEq] at ht
      subst ht
      exact ⟨_, rfl, by simp, by simp, by simp⟩
    | cons e es =>
      by_cases he : e = edgeOf s
      · subst he
        cases hch : n.child (edgeOf s) with
        | none => simp [node.follow, hch] at ht
        | some c =>
          simp only [node.follow, hch] at ht
          rw [hch] at hc'
          have hes' : es ≠ segs.map edgeOf := by
            intro heq
            apply hes
            simp [heq]
          obtain ⟨t', ht', hrest⟩ := ih c c' hc' es hes' ht
          exact ⟨t', by simp [node.follow, ht'], hrest⟩
      · refine ⟨t, ?_, rfl, rfl, rfl⟩
        simp only [node.follow, node.child_setChild_ne n c' he]
        simpa [node.follow] using ht

/-- A node with a handler after the walk is the target or had that handler before. -/
theorem node.addWalk_follow_inv (h : Option H) (R : String) (segs : List String)
    (n n' : node H) (hw : node.addWalk h R n segs = .ok n') (es : List Edge)
    (hes : es ≠ segs.map edgeOf) (t' : node H) (ht' : n'.follow es = some t') :
    t'.handler = none ∨ ∃ t, n.follow es = some t ∧ t.handler = t'.handler := by
  induction segs generalizing n n' es with
  | nil =>
    rw [node.addWalk_nil] at hw
    simp only [Except.ok.injEq] at hw
    subst hw
    cases es with
    | nil => exact absurd rfl hes
    | cons e es =>
      right
      refine ⟨t', ?_, rfl⟩
      simpa [node.follow] using ht'
  | cons s segs ih =>
    obtain ⟨c', hc', rfl⟩ := node.addWalk_cons_inv h R n s segs hw
    cases es with
    | nil =>
      simp only [node.follow, Option.some.injEq] at ht'
      subst ht'
      right
      exact ⟨n, rfl, by simp⟩
    | cons e es =>
      by_cases he : e = edgeOf s
      · subst he
        have hes' : es ≠ segs.map edgeOf := by
          intro heq
          apply hes
          simp [heq]
        simp only [node.follow, node.child_setChild_self] at ht'
        rcases ih _ c' hc' es hes' ht' with h0 | ⟨t, ht, hth⟩
        · exact Or.inl h0
        · cases hch : n.child (edgeOf s) with
          | none =>
            rw [hch] at ht
            left
            cases es with
            | nil =>
              simp only [Option.getD_none, node.follow, Option.some.injEq] at ht
              rw [← hth, ← ht]
              rfl
            | cons e2 es2 =>
              simp [node.follow] at ht
          | some c =>
            rw [hch] at ht
            right
            exact ⟨t, by simpa [node.follow, hch] using ht, hth⟩
      · right
        refine ⟨t', ?_, rfl⟩
        simp only [node.follow, node.child_setChild_ne n c' he] at ht'
        simpa [node.follow] using ht'

/-- A new node has the shape of a built trie. -/
theorem node.Good_fresh (p : String) : (node.fresh p : node H).Good :=
  .mk _ (fun e c hc => by simp at hc) (fun e c hc => by simp at hc)

theorem node.Good.child {n : node H} (hg : n.Good) {e : Edge} {c : node H}
    (hc : n.child e = some c) : edgeOf c.path = e ∧ c.Good := by
  cases hg with
  | mk _ hfit hsub => exact ⟨hfit e c hc, hsub e c hc⟩

theorem node.Good.follow {n : node H} (hg : n.Good) {es : List Edge} {t : node H}
    (ht : n.follow es = some t) : t.Good := by
  induction es generalizing n with
  | nil =>
    simp only [node.follow, Option.some.injEq] at ht
    exact ht ▸ hg
  | cons e es ih =>
    cases hch : n.child e with
    | none => simp [node.follow, hch] at ht
    | some c =>
      simp only [node.follow, hch] at ht
      exact ih (hg.child hch).2 ht

/-- The registration walk keeps the shape. -/
theorem node.addWalk_Good (h : Option H) (R : String) (segs : List String)
    (n n' : node H) (hg : n.Good) (hw : node.addWalk h R n segs = .ok n') : n'.Good := by
  induction segs generalizing n n' with
  | nil =>
    rw [node.addWalk_nil] at hw
    simp only [Except.ok.injEq] at hw
    subst hw
    have key : ∀ e c, ((n.setRoute R).setHandler h).child e = some c →
        edgeOf c.path = e ∧ c.Good := by
      intro e c hc
      simp only [node.child_setHandler, node.child_setRoute] at hc
      exact hg.child hc
    exact .mk _ (fun e c hc => (key e c hc).1) (fun e c hc => (key e c hc).2)
  | cons s segs ih =>
    obtain ⟨c', hc', rfl⟩ := node.addWalk_cons_inv h R n s segs hw
    have hsub : edgeOf ((n.child (edgeOf s)).getD (node.fresh s)).path = edgeOf s ∧
        ((n.child (edgeOf s)).getD (node.fresh s)).Good := by
      cases hch : n.child (edgeOf s) with
      | none => exact ⟨rfl, node.Good_fresh s⟩
      | some c => exact hg.child hch
    have hc'g := ih _ c' hsub.2 hc'
    have hc'p := node.addWalk_path h R segs _ c' hc'
    have key : ∀ e c, (n.setChild (edgeOf s) c').child e = some c →
        edgeOf c.path = e ∧ c.Good := by
      intro e c hc
      rw [node.child_setChild] at hc
      split at hc
      · rename_i he
        simp only [Option.some.injEq] at hc
        subst hc
        subst he
        exact ⟨by rw [hc'p]; exact hsub.1, hc'g⟩
      · exact hg.child hc
    exact .mk _ (fun e c hc => (key e c hc).1) (fun e c hc => (key e c hc).2)

end addWalk

/-! ## The lookup walk -/

section findWalk

variable {H : Type}

theorem isParam_eq_true_iff {s : String} : isParam s = true ↔ ∃ v, s.data = ':' :: v := by
  unfold isParam
  cases s.data with
  | nil => simp
  | cons c0 cs => simp

theorem isParam_eq_false_of_cons {s : String} {c0 : Char} {cs : List Char}
    (hd : s.data = c0 :: cs) (h : isParam s = false) : c0 ≠ ':' := by
  unfold isParam at h
  rw [hd] at h
  simpa using h

/-- A literal key of a well-shaped node is neither `"*"` nor a parameter segment. -/
theorem node.Good.key {n : node H} (hg : n.Good) {k : String} {c : node H}
    (hc : n.children k = some c) : k ≠ "*" ∧ isParam k = false ∧ c.path = k := by
  have h := (hg.child (e := .lit k) hc).1
  rw [edgeOf_lit_iff] at h
  obtain ⟨h1, h2, h3⟩ := h
  rw [h1] at h2 h3
  exact ⟨h2, h3, h1⟩

/-- The lookup loop on a segment that is a literal key. -/
theorem router.findWalk_lit (tree child : node H) (seg : String) (segs : List String)
    (hc : tree.children seg = some child) :
    router.findWalk tree (seg :: segs) = router.findWalk child segs := by
  rw [router.findWalk, hc]

/-- The lookup loop on the parameter branch: it returns at once. -/
theorem router.findWalk_param (tree pc : node H) (seg : String) (segs : List String)
    (v name : List Char) (x : Char)
    (hc : tree.children seg = none) (hs : seg.data = ':' :: v)
    (hp : tree.paramChild = some pc) (hn : pc.path.data = x :: name) :
    router.findWalk tree (seg :: segs) =
      .ok (some ⟨pc, [(String.mk name, String.mk v)]⟩, true) := by
  rw [router.findWalk, hc]
  simp only [hs, hp, if_true, hn]

/-- The lookup loop on the wildcard branch. -/
theorem router.findWalk_star (tree sc : node H) (seg : String) (segs : List String)
    (hc : tree.children seg = none) (hne : seg ≠ "")
    (hp : isParam seg = false ∨ tree.paramChild = none) (hs : tree.starChild = some sc) :
    router.findWalk tree (seg :: segs) = router.findWalk sc segs := by
  rw [router.findWalk, hc]
  have hd := String.data_ne_of_ne_empty hne
  cases hdd : seg.data with
  | nil => exact absurd hdd hd
  | cons c0 cs =>
    simp only
    have : (if c0 = ':' then tree.paramChild else none) = none := by
      rcases hp with hp | hp
      · rw [if_neg (isParam_eq_false_of_cons hdd hp)]
      · rw [hp]; simp
    rw [this, hs]

/-- The lookup loop when no branch applies. -/
theorem router.findWalk_none (tree : node H) (seg : String) (segs : List String)
    (hc : tree.children seg = none) (hne : seg ≠ "")
    (hp : isParam seg = false ∨ tree.paramChild = none) (hs : tree.starChild = none) :
    router.findWalk tree (seg :: segs) = .ok (none, false) := by
  rw [router.findWalk, hc]
  have hd := String.data_ne_of_ne_empty hne
  cases hdd : seg.data with
  | nil => exact absurd hdd hd
  | cons c0 cs =>
    simp only
    have : (if c0 = ':' then tree.paramChild else none) = none := by
      rcases hp with hp | hp
      · rw [if_neg (isParam_eq_false_of_cons hdd hp)]
      · rw [hp]; simp
    rw [this, hs]

/-- Inversion of one step of `walkEdges`. -/
theorem router.walkEdges_cons_inv (tree : node H) (seg : String) (segs : List String)
    (es : List Edge) (hw : router.walkEdges tree (seg :: segs) = some es) :
    ∃ e c es', es = e :: es' ∧ e ≠ .param ∧ tree.child e = some c ∧
      router.walkEdges c segs = some es' ∧
      router.findWalk tree (seg :: segs) = router.findWalk c segs := by
  rw [router.walkEdges] at hw
  cases hc : tree.children seg with
  | some child =>
    rw [hc] at hw
    simp only [Option.map_eq_some'] at hw
    obtain ⟨es', h1, h2⟩ := hw
    exact ⟨.lit seg, child, es', h2.symm, by simp, hc, h1,
      router.findWalk_lit tree child seg segs hc⟩
  | none =>
    rw [hc] at hw
    cases hdd : seg.data with
    | nil => rw [hdd] at hw; simp at hw
    | cons c0 cs =>
      rw [hdd] at hw
      simp only at hw
      cases hif : (if c0 = ':' then tree.paramChild else none) with
      | some pc => rw [hif] at hw; simp at hw
      | none =>
        rw [hif] at hw
        simp only at hw
        cases hs : tree.starChild with
        | none => rw [hs] at hw; simp at hw
        | some sc =>
          rw [hs] at hw
          simp only [Option.map_eq_some'] at hw
          obtain ⟨es', h1, h2⟩ := hw
          refine ⟨.star, sc, es', h2.symm, by simp, hs, h1, ?_⟩
          rw [router.findWalk, hc]
          simp only [hdd, hif, hs]

/-- When the loop consumes every segment it returns the node at the slots it went through,
found exactly when that node has a handler, and binds no parameter. -/
theorem router.findWalk_of_walkEdges (tree : node H) (segs : List String) (es : List Edge)
    (hw : router.walkEdges tree segs = some es) :
    ∃ t, tree.follow es = some t ∧ Edge.param ∉ es ∧
      router.findWalk tree segs = .ok (some ⟨t, []⟩, t.handler.isSome) := by
  induction segs generalizing tree es with
  | nil =>
    simp only [router.walkEdges, Option.some.injEq] at hw
    subst hw
    exact ⟨tree, rfl, by simp, rfl⟩
  | cons seg segs ih =>
    obtain ⟨e, c, es', rfl, hne, hch, hw', hf⟩ := router.walkEdges_cons_inv tree seg segs es hw
    obtain ⟨t, ht, hnp, hfw⟩ := ih c es' hw'
    refine ⟨t, by simp [node.follow, hch, ht], ?_, by rw [hf, hfw]⟩
    simp only [List.mem_cons, not_or]
    exact ⟨fun h => hne h.symm, hnp⟩

/-- The loop over a prefix it consumes entirely, then over the rest. -/
theorem router.findWalk_append (tree : node H) (pre : List String) (es : List Edge)
    (hw : router.walkEdges tree pre = some es) :
    ∃ n, tree.follow es = some n ∧
      ∀ rest, router.findWalk tree (pre ++ rest) = router.findWalk n rest := by
  induction pre generalizing tree es with
  | nil =>
    simp only [router.walkEdges, Option.some.injEq] at hw
    subst hw
    exact ⟨tree, rfl, fun _ => rfl⟩
  | cons seg segs ih =>
    obtain ⟨e, c, es', rfl, -, hch, hw', -⟩ := router.walkEdges_cons_inv tree seg segs es hw
    obtain ⟨n, hn, hrest⟩ := ih c es' hw'
    refine ⟨n, by simp [node.follow, hch, hn], fun rest => ?_⟩
    rw [← hrest rest]
    -- one step of the loop does not look at the later segments
    rw [router.walkEdges] at hw
    cases hc : tree.children seg with
    | some child =>
      have : child = c := by
        rw [hc] at hw
        simp only [Option.map_eq_some'] at hw
        obtain ⟨es2, -, h2⟩ := hw
        have he : e = .lit seg := by
          have := congrArg List.head? h2
          simpa using this.symm
        subst he
        simp only [node.child, hc, Option.some.injEq] at hch
        exact hch
      subst this
      exact router.findWalk_lit tree child seg (segs ++ rest) hc
    | none =>
      rw [hc] at hw
      cases hdd : seg.data with
      | nil => rw [hdd] at hw; simp at hw
      | cons c0 cs =>
        rw [hdd] at hw
        simp only at hw
        cases hif : (if c0 = ':' then tree.paramChild else none) with
        | some pc => rw [hif] at hw; simp at hw
        | none =>
          rw [hif] at hw
          simp only at hw
          cases hs : tree.starChild with
          | none => rw [hs] at hw; simp at hw
          | some sc =>
            rw [hs] at hw
            simp only [Option.map_eq_some'] at hw
            obtain ⟨es2, -, h2⟩ := hw
            have he : e = .star := by
              have := congrArg List.head? h2
              simpa using this.symm
            subst he
            simp only [node.child, hs, Option.some.injEq] at hch
            subst hch
            show router.findWalk tree (seg :: (segs ++ rest)) = _
            rw [router.findWalk, hc]
            simp only [hdd, hif, hs]

/-- On a well-shaped trie the loop over non-empty segments that do not begin with `':'`
goes through exactly the slots a registration of those segments selects. -/
theorem router.walkEdges_of_follow (tree : node H) (hg : tree.Good) (segs : List String)
    (hne : ∀ s ∈ segs, s ≠ "") (hnp : ∀ s ∈ segs, isParam s = false) (t : node H)
    (ht : tree.follow (segs.map edgeOf) = some t) :
    router.walkEdges tree segs = some (segs.map edgeOf) := by
  induction segs generalizing tree with
  | nil => rfl
  | cons s segs ih =>
    have hs := hne s (List.mem_cons_self _ _)
    have hp := hnp s (List.mem_cons_self _ _)
    cases hch : tree.child (edgeOf s) with
    | none => simp [node.follow, hch] at ht
    | some c =>
      simp only [List.map_cons, node.follow, hch] at ht
      have hcg := (hg.child hch).2
      have ihc := ih c hcg (fun x hx => hne x (List.mem_cons_of_mem _ hx))
        (fun x hx => hnp x (List.mem_cons_of_mem _ hx)) ht
      rw [router.walkEdges]
      by_cases hstar : s = "*"
      · subst hstar
        have hnone : tree.children "*" = none := by
          cases hk : tree.children "*" with
          | none => rfl
          | some k => exact absurd rfl (hg.key hk).1
        rw [hnone]
        have hsc : tree.starChild = some c := by
          rw [edgeOf_star] at hch
          exact hch
        have hd : ("*" : String).data = ['*'] := rfl
        simp only [hd, hsc, List.map_cons, edgeOf_star]
        rw [if_neg (by decide)]
        simp only [ihc, Option.map_some']
      · have he : edgeOf s = .lit s := edgeOf_lit_iff.mpr ⟨rfl, hstar, hp⟩
        rw [he] at hch
        have hcs : tree.children s = some c := hch
        rw [hcs]
        simp only [ihc, Option.map_some', List.map_cons, he]

end findWalk

/-! ## Registration on a router -/

section register

variable {H : Type}

theorem strings.splitChars_ne_nil (l : List Char) : strings.splitChars l ≠ [] := by
  induction l with
  | nil => simp [strings.splitChars]
  | cons c cs ih =>
    rw [strings.splitChars]
    split
    · simp
    · split <;> simp

theorem segsOf_ne_nil (p : String) : segsOf p ≠ [] := by
  unfold segsOf strings.Split
  simp only [ne_eq, List.map_eq_nil_iff]
  exact strings.splitChars_ne_nil _

theorem target_eq_nil_iff (p : String) : target p = [] ↔ p = "/" := by
  unfold target
  split
  · simp_all
  · rename_i h
    simp only [List.map_eq_nil_iff, h, iff_false]
    exact segsOf_ne_nil p

theorem target_of_ne {p : String} (h : p ≠ "/") : target p = (segsOf p).map edgeOf := by
  unfold target
  rw [if_neg h]

/-- What a returning `addRoute` did. -/
theorem router.addRoute_inv (r : router H) (m p : String) (h : Option H) (r' : router H)
    (ha : r.addRoute m p h = .ok r') :
    ∃ tree', r' = r.setTree m tree' ∧
      ((p = "/" ∧ tree' = ((r.trees m).getD (node.fresh "/")).setHandler h) ∨
       (p ≠ "/" ∧ node.addWalk h (strings.Trim p) ((r.trees m).getD (node.fresh "/"))
          (segsOf p) = .ok tree')) := by
  unfold router.addRoute at ha
  have hroot : (match r.trees m with | some t => t | none => node.fresh "/") =
      (r.trees m).getD (node.fresh "/") := by
    cases r.trees m <;> rfl
  simp only [hroot] at ha
  by_cases hp : p = "/"
  · rw [if_pos hp] at ha
    simp only [Except.ok.injEq] at ha
    exact ⟨_, ha.symm, Or.inl ⟨hp, rfl⟩⟩
  · rw [if_neg hp] at ha
    cases hw : node.addWalk h (strings.Trim p) ((r.trees m).getD (node.fresh "/"))
        (strings.Split (strings.Trim p)) with
    | error f => simp only [hw] at ha; cases ha
    | ok tree' =>
      simp only [hw, Except.ok.injEq] at ha
      exact ⟨tree', ha.symm, Or.inr ⟨hp, hw⟩⟩

/-- `addRoute` returns on `"/"` and on paths whose segments are all non-empty. -/
theorem router.addRoute_total (r : router H) (m p : String) (h : Option H) (hp : okPath p) :
    ∃ r', r.addRoute m p h = .ok r' := by
  unfold router.addRoute
  by_cases hroot : p = "/"
  · simp [hroot]
  · have hne : ∀ s ∈ segsOf p, s ≠ "" := by
      rcases hp with hp | hp
      · exact absurd hp hroot
      · exact hp
    obtain ⟨t', ht'⟩ := node.addWalk_total h (strings.Trim p) (segsOf p) hne
      (match r.trees m with | some t => t | none => node.fresh "/")
    simp only [if_neg hroot]
    unfold segsOf at ht'
    rw [ht']
    exact ⟨_, rfl⟩

theorem router.Wf_newRoute : (newRoute : router H).Wf := by
  intro m t ht
  simp [newRoute] at ht

theorem router.Wf.root {r : router H} (hr : r.Wf) (m : String) :
    ((r.trees m).getD (node.fresh "/")).path = "/" ∧
    ((r.trees m).getD (node.fresh "/")).Route = "" ∧
    ((r.trees m).getD (node.fresh "/")).Good := by
  cases ht : r.trees m with
  | none => exact ⟨rfl, rfl, node.Good_fresh _⟩
  | some t => exact hr m t ht

/-- `addRoute` keeps the shape of the router. -/
theorem router.addRoute_Wf (r : router H) (hr : r.Wf) (m p : String) (h : Option H)
    (r' : router H) (ha : r.addRoute m p h = .ok r') : r'.Wf := by
  obtain ⟨tree', rfl, hcase⟩ := router.addRoute_inv r m p h r' ha
  obtain ⟨h1, h2, h3⟩ := hr.root m
  intro m' t ht
  rw [router.trees_setTree] at ht
  split at ht
  · simp only [Option.some.injEq] at ht
    subst ht
    rcases hcase with ⟨-, rfl⟩ | ⟨hp, hw⟩
    · refine ⟨by simpa using h1, by simpa using h2, ?_⟩
      have key : ∀ e c, (((r.trees m).getD (node.fresh "/")).setHandler h).child e = some c →
          edgeOf c.path = e ∧ c.Good := by
        intro e c hc
        rw [node.child_setHandler] at hc
        exact h3.child hc
      exact .mk _ (fun e c hc => (key e c hc).1) (fun e c hc => (key e c hc).2)
    · refine ⟨?_, ?_, node.addWalk_Good _ _ _ _ _ h3 hw⟩
      · rw [node.addWalk_path _ _ _ _ _ hw]; exact h1
      · obtain ⟨t', ht', -, hr', -⟩ := node.addWalk_follow_other _ _ _ _ _ hw []
          (by simpa using (segsOf_ne_nil p).symm) _ rfl
        simp only [node.follow, Option.some.injEq] at ht'
        subst ht'
        rw [hr']; exact h2
  · exact hr m' t ht

/-- The registrations return when every path is well formed. -/
theorem router.register_total (regs : List (Registration H))
    (hok : ∀ reg ∈ regs, okPath reg.path) (r : router H) :
    ∃ r', r.register regs = .ok r' := by
  induction regs generalizing r with
  | nil => exact ⟨r, rfl⟩
  | cons reg regs ih =>
    obtain ⟨r1, hr1⟩ := router.addRoute_total r reg.method reg.path (some reg.handler)
      (hok reg (List.mem_cons_self _ _))
    obtain ⟨r', hr'⟩ := ih (fun x hx => hok x (List.mem_cons_of_mem _ hx)) r1
    exact ⟨r', by rw [router.register, hr1]; exact hr'⟩

/-- Inversion of one step of the registrations. -/
theorem router.register_cons_inv (r : router H) (reg : Registration H)
    (regs : List (Registration H)) (r' : router H) (h : r.register (reg :: regs) = .ok r') :
    ∃ r1, r.addRoute reg.method reg.path (some reg.handler) = .ok r1 ∧
      r1.register regs = .ok r' := by
  rw [router.register] at h
  cases h1 : r.addRoute reg.method reg.path (some reg.handler) with
  | error f => rw [h1] at h; cases h
  | ok r1 =>
    rw [h1] at h
    exact ⟨r1, rfl, h⟩

/-- The registrations keep the shape of the router. -/
theorem router.register_Wf (regs : List (Registration H)) (r r' : router H) (hr : r.Wf)
    (h : r.register regs = .ok r') : r'.Wf := by
  induction regs generalizing r with
  | nil =>
    simp only [router.register, Except.ok.injEq] at h
    exact h ▸ hr
  | cons reg regs ih =>
    obtain ⟨r1, h1, h2⟩ := router.register_cons_inv r reg regs r' h
    exact ih r1 (router.addRoute_Wf r hr _ _ _ r1 h1) h2

theorem router.nodeAt_setTree_ne (r : router H) {m m' : String} (t : node H)
    (es : List Edge) (h : m' ≠ m) : (r.setTree m t).nodeAt m' es = r.nodeAt m' es := by
  simp [router.nodeAt, h]

theorem router.nodeAt_setTree_self (r : router H) (m : String) (t : node H)
    (es : List Edge) : (r.setTree m t).nodeAt m es = t.follow es := by
  simp [router.nodeAt]

/-- After `addRoute` the node at the target carries the handler; its route text is the
trimmed path (on a well-shaped router this holds for `"/"` too, whose root has no route text). -/
theorem router.addRoute_target (r : router H) (hr : r.Wf) (m p : String) (h : Option H)
    (r' : router H) (ha : r.addRoute m p h = .ok r') :
    ∃ t, r'.nodeAt m (target p) = some t ∧ t.handler = h ∧ t.Route = strings.Trim p := by
  obtain ⟨tree', rfl, hcase⟩ := router.addRoute_inv r m p h r' ha
  rw [router.nodeAt_setTree_self]
  rcases hcase with ⟨hp, rfl⟩ | ⟨hp, hw⟩
  · subst hp
    refine ⟨_, rfl, by simp, ?_⟩
    rw [node.Route_setHandler, (hr.root m).2.1]
    decide
  · rw [target_of_ne hp]
    exact node.addWalk_follow_target _ _ _ _ _ hw

/-- `addRoute` keeps handler, route text and segment text of every node other than its
target; at its target it keeps the segment text. -/
theorem router.addRoute_other (r : router H) (m p : String) (h : Option H)
    (r' : router H) (ha : r.addRoute m p h = .ok r') (m' : String) (es : List Edge)
    (hne : m' ≠ m ∨ es ≠ target p) (t : node H) (ht : r.nodeAt m' es = some t) :
    ∃ t', r'.nodeAt m' es = some t' ∧ t'.handler = t.handler ∧ t'.Route = t.Route ∧
      t'.path = t.path := by
  obtain ⟨tree', rfl, hcase⟩ := router.addRoute_inv r m p h r' ha
  by_cases hm : m' = m
  · subst hm
    have hes : es ≠ target p := by
      rcases hne with h | h
      · exact absurd rfl h
      · exact h
    rw [router.nodeAt_setTree_self]
    have hsome : ∃ tree, r.trees m' = some tree ∧ tree.follow es = some t := by
      unfold router.nodeAt at ht
      cases htr : r.trees m' with
      | none => rw [htr] at ht; cases ht
      | some tree => rw [htr] at ht; exact ⟨tree, rfl, ht⟩
    obtain ⟨tree, htr, htf⟩ := hsome
    rw [htr] at hcase
    simp only [Option.getD_some] at hcase
    rcases hcase with ⟨hp, rfl⟩ | ⟨hp, hw⟩
    · subst hp
      cases es with
      | nil => exact absurd rfl hes
      | cons e es =>
        refine ⟨t, ?_, rfl, rfl, rfl⟩
        simpa [node.follow] using htf
    · rw [target_of_ne hp] at hes
      exact node.addWalk_follow_other _ _ _ _ _ hw es hes t htf
  · rw [router.nodeAt_setTree_ne _ _ _ hm]
    exact ⟨t, ht, rfl, rfl, rfl⟩

end register

/-! ## Registered patterns -/

section registered

variable {H : Type}

theorem strings.splitChars_injective (l l' : List Char)
    (h : strings.splitChars l = strings.splitChars l') : l = l' := by
  induction l generalizing l' with
  | nil =>
    cases l' with
    | nil => rfl
    | cons c' cs' =>
      rw [strings.splitChars, strings.splitChars] at h
      split at h
      · simp only [List.cons.injEq, true_and] at h
        exact absurd h.symm (strings.splitChars_ne_nil cs')
      · split at h <;> simp at h
  | cons c cs ih =>
    cases l' with
    | nil =>
      rw [strings.splitChars, strings.splitChars] at h
      split at h
      · simp only [List.cons.injEq, true_and] at h
        exact absurd h (strings.splitChars_ne_nil cs)
      · split at h <;> simp at h
    | cons c' cs' =>
      rw [strings.splitChars, strings.splitChars] at h
      by_cases hc : c = '/'
      · by_cases hc' : c' = '/'
        · rw [if_pos hc, if_pos hc'] at h
          simp only [List.cons.injEq, true_and] at h
          rw [hc, hc', ih cs' h]
        · rw [if_pos hc, if_neg hc'] at h
          split at h <;> simp at h
      · by_cases hc' : c' = '/'
        · rw [if_neg hc, if_pos hc'] at h
          split at h <;> simp at h
        · rw [if_neg hc, if_neg hc'] at h
          cases h1 : strings.splitChars cs with
          | nil => exact absurd h1 (strings.splitChars_ne_nil cs)
          | cons seg rest =>
            cases h2 : strings.splitChars cs' with
            | nil => exact absurd h2 (strings.splitChars_ne_nil cs')
            | cons seg' rest' =>
              rw [h1, h2] at h
              simp only [List.cons.injEq] at h
              obtain ⟨⟨hcc, hseg⟩, hrest⟩ := h
              have : strings.splitChars cs = strings.splitChars cs' := by
                rw [h1, h2, hseg, hrest]
              rw [hcc, ih cs' this]

/-- Splitting loses nothing: equal segment lists come from equal strings. -/
theorem strings.Split_injective (a b : String) (h : strings.Split a = strings.Split b) :
    a = b := by
  unfold strings.Split at h
  have hinj : Function.Injective String.mk := by
    intro x y hxy
    injection hxy
  have := List.map_injective_iff.mpr hinj h
  have hd := strings.splitChars_injective _ _ this
  cases a; cases b
  simp_all

/-- Segments that do not begin with `':'` are determined by the slots they select. -/
theorem edgeOf_injective_of_not_param {s s' : String} (hs : isParam s = false)
    (h : edgeOf s' = edgeOf s) : s' = s := by
  by_cases hstar : s = "*"
  · subst hstar
    rw [edgeOf_star] at h
    exact edgeOf_star_iff.mp h
  · have he : edgeOf s = .lit s := edgeOf_lit_iff.mpr ⟨rfl, hstar, hs⟩
    rw [he] at h
    exact (edgeOf_lit_iff.mp h).1

theorem map_edgeOf_injective_of_not_param (segs segs' : List String)
    (hs : ∀ s ∈ segs, isParam s = false)
    (h : segs'.map edgeOf = segs.map edgeOf) : segs' = segs := by
  induction segs generalizing segs' with
  | nil => simpa using h
  | cons s segs ih =>
    cases segs' with
    | nil => simp at h
    | cons s' segs' =>
      simp only [List.map_cons, List.cons.injEq] at h
      rw [edgeOf_injective_of_not_param (hs s (List.mem_cons_self _ _)) h.1,
        ih segs' (fun x hx => hs x (List.mem_cons_of_mem _ hx)) h.2]

/-- Two paths without a parameter segment that select the same node have the same trimmed
form. -/
theorem Trim_eq_of_target_eq (p p' : String) (hs : ∀ s ∈ segsOf p, isParam s = false)
    (h : target p' = target p) : strings.Trim p' = strings.Trim p := by
  by_cases hp : p = "/"
  · subst hp
    have : target p' = [] := by rw [h]; rfl
    rw [(target_eq_nil_iff p').mp this]
  · have hp' : p' ≠ "/" := by
      intro h'
      subst h'
      have : target p = [] := by rw [← h]; rfl
      exact hp ((target_eq_nil_iff p).mp this)
    rw [target_of_ne hp, target_of_ne hp'] at h
    have := map_edgeOf_injective_of_not_param _ _ hs h
    exact strings.Split_injective _ _ this

theorem node.follow_append (n : node H) (a b : List Edge) :
    n.follow (a ++ b) = (n.follow a).bind (fun m => m.follow b) := by
  induction a generalizing n with
  | nil => rfl
  | cons e a ih =>
    simp only [List.cons_append, node.follow]
    cases n.child e with
    | none => rfl
    | some c => exact ih c

/-- On a well-shaped trie, looking up the very segments of a registered pattern whose
segments before the last do not begin with `':'` returns the node the registration ended at. -/
theorem router.findWalk_registered (tree : node H) (hg : tree.Good) (segs : List String)
    (hne : ∀ s ∈ segs, s ≠ "") (hfront : ∀ s ∈ segs.dropLast, isParam s = false)
    (t : node H) (ht : tree.follow (segs.map edgeOf) = some t) :
    ∃ mi b, router.findWalk tree segs = .ok (some mi, b) ∧ mi.n = t ∧
      (t.handler ≠ none → b = true) := by
  by_cases hall : ∀ s ∈ segs, isParam s = false
  · have hw := router.walkEdges_of_follow tree hg segs hne hall t ht
    obtain ⟨t', ht', -, hf⟩ := router.findWalk_of_walkEdges tree segs _ hw
    rw [ht] at ht'
    simp only [Option.some.injEq] at ht'
    subst ht'
    refine ⟨⟨t, []⟩, t.handler.isSome, hf, rfl, fun hh => ?_⟩
    cases hth : t.handler with
    | none => exact absurd hth hh
    | some x => rfl
  · -- the last segment begins with ':'
    have hnil : segs ≠ [] := by
      intro h0
      subst h0
      exact hall (by simp)
    obtain ⟨pre, s, rfl⟩ : ∃ pre s, segs = pre ++ [s] :=
      ⟨segs.dropLast, segs.getLast hnil, (List.dropLast_append_getLast hnil).symm⟩
    simp only [List.dropLast_concat] at hfront
    have hsp : isParam s = true := by
      by_contra hcon
      apply hall
      intro x hx
      rcases List.mem_append.mp hx with hx | hx
      · exact hfront x hx
      · simp only [List.mem_singleton] at hx
        subst hx
        simpa using hcon
    rw [List.map_append, node.follow_append] at ht
    cases hn : tree.follow (pre.map edgeOf) with
    | none => rw [hn] at ht; cases ht
    | some n =>
      rw [hn] at ht
      simp only [Option.some_bind, List.map_cons, List.map_nil, node.follow] at ht
      rw [edgeOf_param_iff.mpr hsp] at ht
      cases hpc : n.child .param with
      | none => rw [hpc] at ht; cases ht
      | some pc =>
        rw [hpc] at ht
        simp only [Option.some.injEq] at ht
        subst ht
        have hw := router.walkEdges_of_follow tree hg pre
          (fun x hx => hne x (List.mem_append_left _ hx)) hfront n hn
        obtain ⟨n', hn', hrest⟩ := router.findWalk_append tree pre _ hw
        rw [hn] at hn'
        simp only [Option.some.injEq] at hn'
        subst hn'
        have hng := hg.follow hn
        have hkey : n.children s = none := by
          cases hk : n.children s with
          | none => rfl
          | some k =>
            have := (hng.key hk).2.1
            rw [hsp] at this
            cases this
        obtain ⟨v, hv⟩ := isParam_eq_true_iff.mp hsp
        have hpp : isParam pc.path = true := edgeOf_param_iff.mp (hng.child hpc).1
        obtain ⟨name, hname⟩ := isParam_eq_true_iff.mp hpp
        refine ⟨⟨pc, [(String.mk name, String.mk v)]⟩, true, ?_, rfl, fun _ => rfl⟩
        rw [hrest [s]]
        exact router.findWalk_param n pc s [] v name ':' hkey hv hpc hname

/-- A node that has a handler keeps one, and keeps its route text, through registrations
none of which ends at it with another trimmed path. -/
theorem router.register_keep (regs : List (Registration H)) (r r' : router H) (hr : r.Wf)
    (h : r.register regs = .ok r') (m : String) (es : List Edge) (t : node H)
    (ht : r.nodeAt m es = some t) (hh : t.handler ≠ none)
    (hsame : ∀ reg' ∈ regs, reg'.method = m → target reg'.path = es →
      strings.Trim reg'.path = t.Route) :
    ∃ t', r'.nodeAt m es = some t' ∧ t'.handler ≠ none ∧ t'.Route = t.Route := by
  induction regs generalizing r t with
  | nil =>
    simp only [router.register, Except.ok.injEq] at h
    subst h
    exact ⟨t, ht, hh, rfl⟩
  | cons reg regs ih =>
    obtain ⟨r1, h1, h2⟩ := router.register_cons_inv r reg regs r' h
    have hr1 := router.addRoute_Wf r hr _ _ _ r1 h1
    have hstep : ∃ t1, r1.nodeAt m es = some t1 ∧ t1.handler ≠ none ∧ t1.Route = t.Route := by
      by_cases hsame1 : reg.method = m ∧ target reg.path = es
      · obtain ⟨hm, he⟩ := hsame1
        obtain ⟨t1, ht1, hh1, hr1'⟩ := router.addRoute_target r hr _ _ _ r1 h1
        rw [hm, he] at ht1
        refine ⟨t1, ht1, by rw [hh1]; simp, ?_⟩
        rw [hr1']
        exact hsame reg (List.mem_cons_self _ _) hm he
      · have hne : m ≠ reg.method ∨ es ≠ target reg.path := by
          by_cases hm : reg.method = m
          · right
            intro he
            exact hsame1 ⟨hm, he.symm⟩
          · left
            exact fun h' => hm h'.symm
        obtain ⟨t1, ht1, hh1, hr1', -⟩ := router.addRoute_other r _ _ _ r1 h1 m es hne t ht
        exact ⟨t1, ht1, by rw [hh1]; exact hh, hr1'⟩
    obtain ⟨t1, ht1, hh1, hrt1⟩ := hstep
    obtain ⟨t', ht', hh', hrt'⟩ := ih r1 hr1 h2 t1 ht1 hh1
      (fun reg' hreg' hm he => by
        rw [hrt1]
        exact hsame reg' (List.mem_cons_of_mem _ hreg') hm he)
    exact ⟨t', ht', hh', by rw [hrt', hrt1]⟩

/-- After the registrations, the node a registered pattern ends at has a handler and, when
every pattern that ends at it has the same trimmed form, that form as its route text. -/
theorem router.register_last (regs : List (Registration H)) (r r' : router H) (hr : r.Wf)
    (h : r.register regs = .ok r') (reg : Registration H) (hreg : reg ∈ regs)
    (hsame : ∀ reg' ∈ regs, reg'.method = reg.method → target reg'.path = target reg.path →
      strings.Trim reg'.path = strings.Trim reg.path) :
    ∃ t, r'.nodeAt reg.method (target reg.path) = some t ∧ t.handler ≠ none ∧
      t.Route = strings.Trim reg.path := by
  induction regs generalizing r with
  | nil => cases hreg
  | cons reg0 regs ih =>
    obtain ⟨r1, h1, h2⟩ := router.register_cons_inv r reg0 regs r' h
    have hr1 := router.addRoute_Wf r hr _ _ _ r1 h1
    rcases List.mem_cons.mp hreg with heq | hmem
    · subst heq
      obtain ⟨t1, ht1, hh1, hrt1⟩ := router.addRoute_target r hr _ _ _ r1 h1
      obtain ⟨t', ht', hh', hrt'⟩ := router.register_keep regs r1 r' hr1 h2 _ _ t1 ht1
        (by rw [hh1]; simp)
        (fun reg' hreg' hm he => by
          rw [hrt1]
          exact hsame reg' (List.mem_cons_of_mem _ hreg') hm he)
      exact ⟨t', ht', hh', by rw [hrt', hrt1]⟩
    · exact ih r1 hr1 h2 hmem
        (fun reg' hreg' hm he => hsame reg' (List.mem_cons_of_mem _ hreg') hm he)

/-- `findRoute` with the very path of a registered pattern whose segments before the last do
not begin with `':'`: it returns the node the registration ended at. -/
theorem router.findRoute_registered (r : router H) (hr : r.Wf) (m p : String) (hp : okPath p)
    (hfront : ∀ s ∈ (segsOf p).dropLast, isParam s = false) (t : node H)
    (ht : r.nodeAt m (target p) = some t) :
    ∃ mi b, r.findRoute m p = .ok (some mi, b) ∧ mi.n = t ∧ (t.handler ≠ none → b = true) := by
  unfold router.nodeAt at ht
  unfold router.findRoute
  cases htr : r.trees m with
  | none => rw [htr] at ht; cases ht
  | some tree =>
    rw [htr] at ht
    simp only
    by_cases hroot : p = "/"
    · subst hroot
      simp only [target, if_true, node.follow, Option.some.injEq] at ht
      subst ht
      exact ⟨⟨tree, []⟩, true, by simp, rfl, fun _ => rfl⟩
    · rw [if_neg hroot]
      rw [target_of_ne hroot] at ht
      have hne : ∀ s ∈ segsOf p, s ≠ "" := by
        rcases hp with hp | hp
        · exact absurd hp hroot
        · exact hp
      exact router.findWalk_registered tree (hr m tree htr).2.2 (segsOf p) hne hfront t ht

end registered

/-- The registrations of a list, then those of another. -/
theorem router.register_append_inv {H : Type} (a b : List (Registration H)) (r r' : router H)
    (h : r.register (a ++ b) = .ok r') :
    ∃ r1, r.register a = .ok r1 ∧ r1.register b = .ok r' := by
  induction a generalizing r with
  | nil => exact ⟨r, rfl, h⟩
  | cons reg a ih =>
    obtain ⟨r0, h0, h1⟩ := router.register_cons_inv r reg (a ++ b) r' h
    obtain ⟨r1, h2, h3⟩ := ih r0 h1
    exact ⟨r1, by rw [router.register, h0]; exact h2, h3⟩

/-! ## Handlers are kept -/

section handlerInvariant

variable {H : Type}

/-- A node that has a handler keeps one through later registrations. -/
theorem router.register_handler_kept (regs : List (Registration H)) (r r' : router H)
    (hr : r.Wf) (h : r.register regs = .ok r') (m : String) (es : List Edge) (t : node H)
    (ht : r.nodeAt m es = some t) (hh : t.handler ≠ none) :
    ∃ t', r'.nodeAt m es = some t' ∧ t'.handler ≠ none := by
  induction regs generalizing r t with
  | nil =>
    simp only [router.register, Except.ok.injEq] at h
    subst h
    exact ⟨t, ht, hh⟩
  | cons reg regs ih =>
    obtain ⟨r1, h1, h2⟩ := router.register_cons_inv r reg regs r' h
    have hr1 := router.addRoute_Wf r hr _ _ _ r1 h1
    by_cases hsame : reg.method = m ∧ target reg.path = es
    · obtain ⟨hm, he⟩ := hsame
      obtain ⟨t1, ht1, hh1, -⟩ := router.addRoute_target r hr _ _ _ r1 h1
      rw [hm, he] at ht1
      exact ih r1 hr1 h2 t1 ht1 (by rw [hh1]; simp)
    · have hne : m ≠ reg.method ∨ es ≠ target reg.path := by
        by_cases hm : reg.method = m
        · right
          intro he
          exact hsame ⟨hm, he.symm⟩
        · left
          exact fun h' => hm h'.symm
      obtain ⟨t1, ht1, hh1, -, -⟩ := router.addRoute_other r _ _ _ r1 h1 m es hne t ht
      exact ih r1 hr1 h2 t1 ht1 (by rw [hh1]; exact hh)

/-- After the registrations the target of each of them has a handler. -/
theorem router.register_target_handler (regs : List (Registration H)) (r r' : router H)
    (hr : r.Wf) (h : r.register regs = .ok r') (reg : Registration H) (hreg : reg ∈ regs) :
    ∃ t, r'.nodeAt reg.method (target reg.path) = some t ∧ t.handler ≠ none := by
  induction regs generalizing r with
  | nil => cases hreg
  | cons reg0 regs ih =>
    obtain ⟨r1, h1, h2⟩ := router.register_cons_inv r reg0 regs r' h
    have hr1 := router.addRoute_Wf r hr _ _ _ r1 h1
    rcases List.mem_cons.mp hreg with heq | hmem
    · subst heq
      obtain ⟨t1, ht1, hh1, -⟩ := router.addRoute_target r hr _ _ _ r1 h1
      exact router.register_handler_kept regs r1 r' hr1 h2 _ _ t1 ht1 (by rw [hh1]; simp)
    · exact ih r1 hr1 h2 hmem

end handlerInvariant

/-- On a well-shaped trie, looking up the very segments of a registered pattern is reported
as found: the walk follows the slots of the registration up to the node it ended at, which
has a handler, or up to the first segment that begins with `':'`, where it returns the param
child at once. -/
theorem router.findWalk_registered_found {H : Type} (tree : node H) (hg : tree.Good)
    (segs : List String) (hne : ∀ s ∈ segs, s ≠ "") (t : node H)
    (ht : tree.follow (segs.map edgeOf) = some t) (hh : t.handler ≠ none) :
    ∃ mi, router.findWalk tree segs = .ok (some mi, true) := by
  induction segs generalizing tree with
  | nil =>
    simp only [List.map_nil, node.follow, Option.some.injEq] at ht
    subst ht
    refine ⟨⟨tree, []⟩, ?_⟩
    rw [router.findWalk]
    cases hth : tree.handler with
    | none => exact absurd hth hh
    | some x => rfl
  | cons s segs ih =>
    have hs := hne s (List.mem_cons_self _ _)
    cases hch : tree.child (edgeOf s) with
    | none => simp [node.follow, hch] at ht
    | some c =>
      simp only [List.map_cons, node.follow, hch] at ht
      have hcg := hg.child hch
      have hrest := ih c hcg.2 (fun x hx => hne x (List.mem_cons_of_mem _ hx)) ht
      have hnokey : ∀ k, tree.children s = some k → isParam s = false ∧ s ≠ "*" :=
        fun k hk => ⟨(hg.key hk).2.1, (hg.key hk).1⟩
      by_cases hp : isParam s = true
      · have hkey : tree.children s = none := by
          cases hk : tree.children s with
          | none => rfl
          | some k =>
            have := (hnokey k hk).1
            rw [hp] at this
            cases this
        rw [edgeOf_param_iff.mpr hp] at hch hcg
        obtain ⟨v, hv⟩ := isParam_eq_true_iff.mp hp
        obtain ⟨name, hname⟩ := isParam_eq_true_iff.mp (edgeOf_param_iff.mp hcg.1)
        exact ⟨_, router.findWalk_param tree c s segs v name ':' hkey hv hch hname⟩
      · have hp' : isParam s = false := by simpa using hp
        by_cases hstar : s = "*"
        · have hkey : tree.children s = none := by
            cases hk : tree.children s with
            | none => rfl
            | some k => exact absurd hstar (hnokey k hk).2
          rw [edgeOf_star_iff.mpr hstar] at hch
          rw [router.findWalk_star tree c s segs hkey hs (Or.inl hp') hch]
          exact hrest
        · rw [edgeOf_lit_iff.mpr ⟨rfl, hstar, hp'⟩] at hch
          rw [router.findWalk_lit tree c s segs hch]
          exact hrest

/-- On a router of the shape `addRoute` builds, `findRoute` with the very path of a pattern
whose target has a handler reports found. -/
theorem router.findRoute_registered_found {H : Type} (r : router H) (hr : r.Wf)
    (m p : String) (hp : okPath p) (t : node H) (ht : r.nodeAt m (target p) = some t)
    (hh : t.handler ≠ none) : ∃ mi, r.findRoute m p = .ok (some mi, true) := by
  unfold router.nodeAt at ht
  unfold router.findRoute
  cases htr : r.trees m with
  | none => rw [htr] at ht; cases ht
  | some tree =>
    rw [htr] at ht
    simp only
    by_cases hroot : p = "/"
    · exact ⟨⟨tree, []⟩, by simp [hroot]⟩
    · rw [if_neg hroot]
      rw [target_of_ne hroot] at ht
      have hne : ∀ s ∈ segsOf p, s ≠ "" := by
        rcases hp with hp | hp
        · exact absurd hp hroot
        · exact hp
      exact router.findWalk_registered_found tree (hr m tree htr).2.2 (segsOf p) hne t ht hh

/-- C1 (amended): for registrations with non-nil handlers whose paths are `"/"` or have only
non-empty segments, the registrations return a router on which `findRoute`, called with the
very path of any registered pattern, returns found = true and a node; the `Route` of that node
is the trimmed pattern when no segment of the pattern begins with `':'`, and also when no
segment before the last begins with `':'` and every pattern registered later under the same
method that ends at the same node has the same trimmed form. -/
theorem C1_registered_pattern_found {H : Type} (before after : List (Registration H))
    (reg : Registration H) (hok : ∀ x ∈ before ++ reg :: after, okPath x.path) :
    ∃ r, (newRoute : router H).register (before ++ reg :: after) = .ok r ∧
      ∃ mi, r.findRoute reg.method reg.path = .ok (some mi, true) ∧
        (((∀ s ∈ segsOf reg.path, isParam s = false) ∨
          ((∀ s ∈ (segsOf reg.path).dropLast, isParam s = false) ∧
            ∀ reg' ∈ after, reg'.method = reg.method → target reg'.path = target reg.path →
              strings.Trim reg'.path = strings.Trim reg.path)) →
          mi.n.Route = strings.Trim reg.path) := by
  obtain ⟨r, hr⟩ := router.register_total _ hok (newRoute : router H)
  have hwf := router.register_Wf _ _ r router.Wf_newRoute hr
  have hokreg : okPath reg.path := hok reg (by simp)
  obtain ⟨t0, ht0, hh0⟩ := router.register_target_handler _ _ r router.Wf_newRoute hr reg
    (by simp)
  obtain ⟨mi, hmi⟩ := router.findRoute_registered_found r hwf reg.method reg.path hokreg
    t0 ht0 hh0
  refine ⟨r, hr, mi, hmi, fun hpat => ?_⟩
  have hfront : ∀ s ∈ (segsOf reg.path).dropLast, isParam s = false := by
    rcases hpat with hall | ⟨hfront, -⟩
    · exact fun s hs => hall s (List.mem_of_mem_dropLast hs)
    · exact hfront
  have hlater : ∀ reg' ∈ after, reg'.method = reg.method → target reg'.path = target reg.path →
      strings.Trim reg'.path = strings.Trim reg.path := by
    rcases hpat with hall | ⟨-, hlater⟩
    · exact fun reg' _ _ he => Trim_eq_of_target_eq reg.path reg'.path hall he
    · exact hlater
  obtain ⟨rb, hb, hrest⟩ := router.register_append_inv before (reg :: after) _ r hr
  have hwfb := router.register_Wf _ _ rb router.Wf_newRoute hb
  obtain ⟨r1, h1, h2⟩ := router.register_cons_inv rb reg after r hrest
  obtain ⟨t1, ht1, hh1, hrt1⟩ := router.addRoute_target rb hwfb _ _ _ r1 h1
  obtain ⟨t, ht, -, hrt⟩ := router.register_keep after r1 r
    (router.addRoute_Wf rb hwfb _ _ _ r1 h1) h2 _ _ t1 ht1 (by rw [hh1]; simp)
    (fun reg' hreg' hm he => by rw [hrt1]; exact hlater reg' hreg' hm he)
  obtain ⟨mi', b, hmi', hn, -⟩ := router.findRoute_registered r hwf reg.method reg.path
    hokreg hfront t ht
  rw [hmi] at hmi'
  simp only [Except.ok.injEq, Prod.mk.injEq, Option.some.injEq] at hmi'
  rw [hmi'.1, hn, hrt, hrt1]

/-- C1 witness: the registrations of the test; `/home/:order_id`, whose last segment is its
only one beginning with `':'`, is found with its route. -/
theorem C1_registered_pattern_found_witness :
    (∀ x ∈ testRegs, okPath x.path) ∧
    ∃ r mi, (newRoute : router Nat).register testRegs = .ok r ∧
      r.findRoute "GET" "/home/:order_id" = .ok (some mi, true) ∧
      mi.n.Route = "home/:order_id" := by
  refine ⟨by decide, ?_⟩
  obtain ⟨r, hr, mi, hmi, hroute⟩ := C1_registered_pattern_found
    [⟨"GET", "/", 0⟩, ⟨"GET", "/user", 0⟩, ⟨"GET", "user", 0⟩, ⟨"GET", "/home/", 0⟩,
      ⟨"GET", "/home/*/detail", 0⟩]
    [⟨"GET", "/user/detail/profile", 0⟩, ⟨"GET", "/user/*", 0⟩,
      ⟨"POST", "/user/detail/profile", 0⟩, ⟨"GET", "/business/order/detail/part", 0⟩]
    ⟨"GET", "/home/:order_id", 0⟩ (by decide)
  exact ⟨r, mi, hr, hmi, hroute (Or.inr ⟨by decide, by decide⟩)⟩

/-- C1 counterexample: with only `/home/:id/detail` registered, `findRoute` on that very path
returns the param node, whose `Route` is empty; and with `/a/:x` then `/a/:y` registered,
`findRoute` on `/a/:x` returns a node whose `Route` is `a/:y`. -/
theorem C1_counterexample :
    (∃ r mi, (newRoute : router Nat).register [⟨"GET", "/home/:id/detail", 0⟩] = .ok r ∧
      r.findRoute "GET" "/home/:id/detail" = .ok (some mi, true) ∧
      mi.n.Route = "" ∧ strings.Trim "/home/:id/detail" = "home/:id/detail") ∧
    (∃ r mi, (newRoute : router Nat).register [⟨"GET", "/a/:x", 0⟩, ⟨"GET", "/a/:y", 1⟩] = .ok r ∧
      r.findRoute "GET" "/a/:x" = .ok (some mi, true) ∧
      mi.n.Route = "a/:y" ∧ strings.Trim "/a/:x" = "a/:x") :=
  ⟨⟨_, _, rfl, rfl, rfl, rfl⟩, ⟨_, _, rfl, rfl, rfl, rfl⟩⟩

/-! ## The middleware chain -/

/-- The loop of `ServeHTTP`, run down from `i`, wraps the first `i` middlewares around the
root, the first one outermost. -/
theorem HTTPServe.wrap_eq_foldr (mw : List Middleware) (i : Nat) (hi : i ≤ mw.length)
    (root : HandlerFunc) :
    HTTPServe.wrap mw i root = (mw.take i).foldr (fun m acc => m acc) root := by
  induction i generalizing root with
  | zero => rfl
  | succ i ih =>
    have hlt : i < mw.length := hi
    rw [HTTPServe.wrap, List.getElem?_eq_getElem hlt]
    show HTTPServe.wrap mw i (mw[i] root) = _
    rw [ih (Nat.le_of_lt hlt) (mw[i] root)]
    rw [List.take_succ, List.getElem?_eq_getElem hlt]
    rw [Option.toList, List.foldr_append]
    rfl

theorem HTTPServe.wrap_length (mw : List Middleware) (root : HandlerFunc) :
    HTTPServe.wrap mw mw.length root = mw.foldr (fun m acc => m acc) root := by
  rw [HTTPServe.wrap_eq_foldr mw mw.length (Nat.le_refl _), List.take_length]

/-- Recording middlewares around a root that records `t`. -/
theorem recorder_foldr (labels : List (String × String)) (root : HandlerFunc) (req : Request)
    (t : String)
    (hroot : ∀ c : Context, c.req = req → ∃ c', root c = .ok c' ∧ c'.res = c.res ++ [.Write t])
    (c : Context) (hc : c.req = req) :
    ∃ c', (labels.map (fun l => recorder l.1 l.2)).foldr (fun m acc => m acc) root c = .ok c' ∧
      c'.res = c.res ++ labels.map (fun l => ResOp.Write l.1) ++ [.Write t] ++
        labels.reverse.map (fun l => ResOp.Write l.2) := by
  induction labels generalizing c with
  | nil =>
    obtain ⟨c', h1, h2⟩ := hroot c hc
    exact ⟨c', h1, by simp [h2]⟩
  | cons l labels ih =>
    obtain ⟨c', h1, h2⟩ := ih { c with res := c.res ++ [.Write l.1] } hc
    refine ⟨{ c' with res := c'.res ++ [.Write l.2] }, ?_, ?_⟩
    · simp only [List.map_cons, List.foldr_cons, recorder]
      rw [h1]
    · simp [h2]

/-- C2: middlewares given to `Use` in the order m_0 .. m_{n-1}, each writing its pre label,
calling its inner handler and then writing its post label, around a dispatch that records
`t`: `ServeHTTP` returns and the response holds exactly pre_0, .., pre_{n-1}, t,
post_{n-1}, .., post_0 after what it held before. -/
theorem C2_middleware_onion (h : HTTPServe) (labels : List (String × String))
    (res : List ResOp) (req : Request) (t : String)
    (hserve : ∀ c : Context, c.req = req →
      ∃ c', (h.Use (labels.map (fun l => recorder l.1 l.2))).serve c = .ok c' ∧
        c'.res = c.res ++ [.Write t]) :
    ∃ c, (h.Use (labels.map (fun l => recorder l.1 l.2))).ServeHTTP res req = .ok c ∧
      c.res = res ++ labels.map (fun l => ResOp.Write l.1) ++ [.Write t] ++
        labels.reverse.map (fun l => ResOp.Write l.2) := by
  unfold HTTPServe.ServeHTTP
  simp only [HTTPServe.wrap_length]
  exact recorder_foldr labels _ req t hserve _ rfl

/-- C2 witness: A, B, C around the route `GET /` whose handler records `t`. -/
theorem C2_middleware_onion_witness :
    ∃ c, (recServer.Use [recorder "A" "a", recorder "B" "b", recorder "C" "c"]).ServeHTTP []
        ⟨"GET", "/"⟩ = .ok c ∧
      c.res = [.Write "A", .Write "B", .Write "C", .Write "t", .Write "c", .Write "b",
        .Write "a"] :=
  C2_middleware_onion recServer [("A", "a"), ("B", "b"), ("C", "c")] [] ⟨"GET", "/"⟩ "t"
    (fun c hc => ⟨{ c with res := c.res ++ [.Write "t"], pathValue := [], route := "/" },
      by unfold HTTPServe.serve; rw [hc]; rfl, rfl⟩)

/-! ## Handlers sit only at registered nodes -/

section handlers

variable {H : Type}

theorem node.follow_fresh (p : String) (es : List Edge) (t : node H)
    (h : (node.fresh p : node H).follow es = some t) : es = [] ∧ t = node.fresh p := by
  cases es with
  | nil =>
    simp only [node.follow, Option.some.injEq] at h
    exact ⟨rfl, h.symm⟩
  | cons e es => simp [node.follow] at h

/-- A node that has a handler after `addRoute` is its target or had that handler before. -/
theorem router.addRoute_handler_inv (r : router H) (m p : String) (h : Option H)
    (r' : router H) (ha : r.addRoute m p h = .ok r') (m' : String) (es : List Edge)
    (t' : node H) (ht' : r'.nodeAt m' es = some t') (hh : t'.handler ≠ none) :
    (m' = m ∧ es = target p) ∨ ∃ t, r.nodeAt m' es = some t ∧ t.handler = t'.handler := by
  obtain ⟨tree', rfl, hcase⟩ := router.addRoute_inv r m p h r' ha
  by_cases hm : m' = m
  · subst hm
    by_cases hes : es = target p
    · exact Or.inl ⟨rfl, hes⟩
    · right
      rw [router.nodeAt_setTree_self] at ht'
      have hroot : ∀ t, ((r.trees m').getD (node.fresh "/")).follow es = some t →
          t.handler = t'.handler → ∃ t, r.nodeAt m' es = some t ∧ t.handler = t'.handler := by
        intro t ht hth
        unfold router.nodeAt
        cases htr : r.trees m' with
        | none =>
          rw [htr] at ht
          obtain ⟨-, rfl⟩ := node.follow_fresh _ _ _ ht
          exact absurd hth.symm hh
        | some tree =>
          rw [htr] at ht
          exact ⟨t, ht, hth⟩
      rcases hcase with ⟨hp, rfl⟩ | ⟨hp, hw⟩
      · subst hp
        cases es with
        | nil => exact absurd rfl hes
        | cons e es =>
          refine hroot t' ?_ rfl
          simpa [node.follow] using ht'
      · rw [target_of_ne hp] at hes
        rcases node.addWalk_follow_inv _ _ _ _ _ hw es hes t' ht' with h0 | ⟨t, ht, hth⟩
        · exact absurd h0 hh
        · exact hroot t ht hth
  · right
    rw [router.nodeAt_setTree_ne _ _ _ hm] at ht'
    exact ⟨t', ht', rfl⟩

/-- A node that has a handler after the registrations is the target of one of them or had a
handler before. -/
theorem router.register_handler_inv (regs : List (Registration H)) (r r' : router H)
    (h : r.register regs = .ok r') (m : String) (es : List Edge) (t' : node H)
    (ht' : r'.nodeAt m es = some t') (hh : t'.handler ≠ none) :
    (∃ reg ∈ regs, reg.method = m ∧ target reg.path = es) ∨
      ∃ t, r.nodeAt m es = some t ∧ t.handler ≠ none := by
  induction regs generalizing r with
  | nil =>
    simp only [router.register, Except.ok.injEq] at h
    subst h
    exact Or.inr ⟨t', ht', hh⟩
  | cons reg regs ih =>
    obtain ⟨r1, h1, h2⟩ := router.register_cons_inv r reg regs r' h
    rcases ih r1 h2 with ⟨reg', hreg', hm, he⟩ | ⟨t1, ht1, hh1⟩
    · exact Or.inl ⟨reg', List.mem_cons_of_mem _ hreg', hm, he⟩
    · rcases router.addRoute_handler_inv r _ _ _ r1 h1 m es t1 ht1 hh1 with ⟨hm, he⟩ | ⟨t, ht, hth⟩
      · exact Or.inl ⟨reg, List.mem_cons_self _ _, hm.symm, he.symm⟩
      · exact Or.inr ⟨t, ht, by rw [hth]; exact hh1⟩

/-- On a router built from the empty one, a node with a handler is the target of a
registration. -/
theorem router.handler_registered (regs : List (Registration H)) (r : router H)
    (h : (newRoute : router H).register regs = .ok r) (m : String) (es : List Edge)
    (t : node H) (ht : r.nodeAt m es = some t) (hh : t.handler ≠ none) :
    ∃ reg ∈ regs, reg.method = m ∧ target reg.path = es := by
  rcases router.register_handler_inv regs _ r h m es t ht hh with hreg | ⟨t0, ht0, -⟩
  · exact hreg
  · simp [router.nodeAt, newRoute] at ht0

theorem routerOf_eq (regs : List (Registration H)) (r : router H)
    (h : (newRoute : router H).register regs = .ok r) : routerOf regs = r := by
  unfold routerOf
  rw [h]

end handlers

/-- C3: on a router built from the empty one by registrations with non-nil handlers, a path
other than `"/"` whose lookup consumes every segment through literal and wildcard children and
ends at a node that no registration of that method ended at is reported with found = false
(the node itself is returned). -/
theorem C3_intermediate_node_not_found {H : Type} (regs : List (Registration H))
    (r : router H) (hr : (newRoute : router H).register regs = .ok r)
    (m p : String) (hp : p ≠ "/") (tree : node H) (htree : r.trees m = some tree)
    (es : List Edge) (hwalk : router.walkEdges tree (segsOf p) = some es)
    (hnot : ∀ reg ∈ regs, reg.method = m → target reg.path ≠ es) :
    ∃ t, tree.follow es = some t ∧ r.findRoute m p = .ok (some ⟨t, []⟩, false) := by
  obtain ⟨t, ht, -, hf⟩ := router.findWalk_of_walkEdges tree (segsOf p) es hwalk
  refine ⟨t, ht, ?_⟩
  have hnone : t.handler = none := by
    by_contra hh
    have hat : r.nodeAt m es = some t := by
      simp [router.nodeAt, htree, ht]
    obtain ⟨reg, hreg, hm, he⟩ := router.handler_registered regs r hr m es t hat hh
    exact hnot reg hreg hm he
  unfold router.findRoute
  rw [htree]
  simp only [if_neg hp]
  unfold segsOf at hf
  rw [hf, hnone]
  rfl

/-- C3 witness: after `/user`, `/user/detail/profile` and `/user/*` under GET, the path
`/user/detail` ends at the intermediate node `detail` and is not found. -/
theorem C3_intermediate_node_not_found_witness :
    (newRoute : router Nat).register userRegs = .ok (routerOf userRegs) ∧
    ∃ t, (treeOf (routerOf userRegs) "GET").follow [.lit "user", .lit "detail"] = some t ∧
      t.path = "detail" ∧
      (routerOf userRegs).findRoute "GET" "/user/detail" = .ok (some ⟨t, []⟩, false) := by
  refine ⟨rfl, ?_⟩
  obtain ⟨t, ht, hf⟩ := C3_intermediate_node_not_found userRegs (routerOf userRegs) rfl
    "GET" "/user/detail" (by decide) (treeOf (routerOf userRegs) "GET") rfl
    [.lit "user", .lit "detail"] rfl (by decide)
  refine ⟨t, ht, ?_, hf⟩
  have hpath : ((treeOf (routerOf userRegs) "GET").follow [.lit "user", .lit "detail"]).map
      node.path = some "detail" := rfl
  rw [ht] at hpath
  simpa using hpath

/-! ## Trimming and splitting concrete shapes -/

theorem strings.splitChars_no_slash (a : List Char) (ha : '/' ∉ a) :
    strings.splitChars a = [a] := by
  induction a with
  | nil => rfl
  | cons c cs ih =>
    simp only [List.mem_cons, not_or] at ha
    rw [strings.splitChars, if_neg (fun h => ha.1 h.symm), ih ha.2]

theorem strings.splitChars_append_slash (a b : List Char) (ha : '/' ∉ a) :
    strings.splitChars (a ++ '/' :: b) = a :: strings.splitChars b := by
  induction a with
  | nil => simp [strings.splitChars]
  | cons c cs ih =>
    simp only [List.mem_cons, not_or] at ha
    rw [List.cons_append, strings.splitChars, if_neg (fun h => ha.1 h.symm), ih ha.2]

theorem strings.trimLeft_cons_ne (c : Char) (cs : List Char) (hc : c ≠ '/') :
    strings.trimLeft (c :: cs) = c :: cs := by
  rw [strings.trimLeft, if_neg hc]

/-- The segments of `/home/x/detail` for a non-empty slash-free `x`. -/
theorem segsOf_home_detail (x : String) (hslash : '/' ∉ x.data) :
    segsOf ("/home/" ++ x ++ "/detail") = ["home", x, "detail"] := by
  have hdata : ("/home/" ++ x ++ "/detail").data =
      '/' :: ('h' :: 'o' :: 'm' :: 'e' :: '/' :: (x.data ++ ['/', 'd', 'e', 't', 'a', 'i', 'l'])) := by
    simp [String.data_append]
  have htrim : strings.trimChars ("/home/" ++ x ++ "/detail").data =
      ['h', 'o', 'm', 'e'] ++ '/' :: (x.data ++ '/' :: ['d', 'e', 't', 'a', 'i', 'l']) := by
    rw [hdata]
    unfold strings.trimChars
    rw [strings.trimLeft, if_pos rfl, strings.trimLeft_cons_ne _ _ (by decide)]
    simp only [List.reverse_cons, List.reverse_append, List.reverse_nil, List.nil_append,
      List.cons_append, List.append_assoc]
    rw [strings.trimLeft_cons_ne _ _ (by decide)]
    simp
  unfold segsOf strings.Split strings.Trim
  simp only [htrim]
  rw [strings.splitChars_append_slash _ _ (by decide),
    strings.splitChars_append_slash _ _ hslash, strings.splitChars_no_slash _ (by decide)]
  rfl

/-- C4: on a router built from the empty one by registrations with non-nil handlers, one of
which is `/home/*/detail` under method `m`, where `home` is the literal child `home` of the
root: for every non-empty slash-free segment `x` that is not a literal key of `home` and does
not take the parameter branch, `findRoute(m, "/home/x/detail")` returns found = true and the
literal child `detail` (node path `"detail"`) of the wildcard child of `home`. -/
theorem C4_wildcard_then_literal {H : Type} (regs : List (Registration H)) (r : router H)
    (hr : (newRoute : router H).register regs = .ok r) (m : String) (h : H)
    (hreg : (⟨m, "/home/*/detail", h⟩ : Registration H) ∈ regs)
    (root home : node H) (hroot : r.trees m = some root)
    (hhome : root.children "home" = some home)
    (x : String) (hx : x ≠ "") (hslash : '/' ∉ x.data) (hlit : home.children x = none)
    (hpar : isParam x = false ∨ home.paramChild = none) :
    ∃ sc d, home.starChild = some sc ∧ sc.children "detail" = some d ∧ d.path = "detail" ∧
      r.findRoute m ("/home/" ++ x ++ "/detail") = .ok (some ⟨d, []⟩, true) := by
  have hwf := router.register_Wf regs _ r router.Wf_newRoute hr
  obtain ⟨t, ht, hh, -⟩ := router.register_last regs _ r router.Wf_newRoute hr _ hreg
    (fun reg' _ _ he => Trim_eq_of_target_eq "/home/*/detail" reg'.path (by decide) he)
  have htarget : target "/home/*/detail" = [.lit "home", .star, .lit "detail"] := by decide
  unfold router.nodeAt at ht
  rw [hroot, htarget] at ht
  simp only [node.follow] at ht
  have hhome' : root.child (.lit "home") = some home := hhome
  rw [hhome'] at ht
  simp only at ht
  cases hsc : home.child .star with
  | none => rw [hsc] at ht; cases ht
  | some sc =>
    rw [hsc] at ht
    simp only at ht
    cases hd : sc.child (.lit "detail") with
    | none => rw [hd] at ht; cases ht
    | some d =>
      rw [hd] at ht
      simp only [Option.some.injEq] at ht
      subst ht
      have hgood : root.Good := (hwf m root hroot).2.2
      have hscg : sc.Good := (hgood.child hhome').2.child hsc |>.2
      refine ⟨sc, d, hsc, hd, (hscg.key hd).2.2, ?_⟩
      unfold router.findRoute
      rw [hroot]
      have hne : ("/home/" ++ x ++ "/detail") ≠ "/" := by
        intro hcon
        have := congrArg String.data hcon
        simp [String.data_append] at this
      simp only [if_neg hne]
      have hsegs := segsOf_home_detail x hslash
      unfold segsOf at hsegs
      rw [hsegs, router.findWalk_lit root home "home" _ hhome,
        router.findWalk_star home sc x _ hlit hx hpar hsc,
        router.findWalk_lit sc d "detail" _ hd, router.findWalk]
      cases hdh : d.handler with
      | none => exact absurd hdh hh
      | some _ => rfl

/-- C4 witness: the registrations of the test and `x = "abc"`. -/
theorem C4_wildcard_then_literal_witness :
    (newRoute : router Nat).register testRegs = .ok (routerOf testRegs) ∧
    ∃ sc d,
      (((treeOf (routerOf testRegs) "GET").children "home").getD (node.fresh "")).starChild
        = some sc ∧
      sc.children "detail" = some d ∧ d.path = "detail" ∧
      (routerOf testRegs).findRoute "GET" "/home/abc/detail" = .ok (some ⟨d, []⟩, true) :=
  ⟨rfl, C4_wildcard_then_literal testRegs (routerOf testRegs) rfl "GET" 0
    (by simp [testRegs]) (treeOf (routerOf testRegs) "GET")
    (((treeOf (routerOf testRegs) "GET").children "home").getD (node.fresh ""))
    rfl rfl "abc" (by decide) (by decide) rfl (Or.inl rfl)⟩

/-- C5: when the lookup has consumed the segments `pre` through literal and wildcard children
and stands at node `n` with a segment `s` that begins with `':'`, `n` has no literal child
keyed `s` and has a param child `c` (named `':' ++ name`), `findRoute` returns node `c`,
found = true and the single binding of `name` to `s` without its `':'`, whatever segments
`post` follow and whatever the handler of `c` is. -/
theorem C5_param_branch_returns_at_once {H : Type} (r : router H) (m path : String)
    (hp : path ≠ "/") (tree : node H) (htree : r.trees m = some tree)
    (pre : List String) (s : String) (post : List String)
    (hsegs : segsOf path = pre ++ s :: post)
    (es : List Edge) (hwalk : router.walkEdges tree pre = some es)
    (n : node H) (hn : tree.follow es = some n)
    (v : List Char) (hs : s.data = ':' :: v) (hlit : n.children s = none)
    (c : node H) (hc : n.paramChild = some c)
    (name : List Char) (hname : c.path.data = ':' :: name) :
    r.findRoute m path = .ok (some ⟨c, [(String.mk name, String.mk v)]⟩, true) := by
  unfold router.findRoute
  rw [htree]
  simp only [if_neg hp]
  unfold segsOf at hsegs
  rw [hsegs]
  obtain ⟨n', hn', hrest⟩ := router.findWalk_append tree pre es hwalk
  rw [hn] at hn'
  simp only [Option.some.injEq] at hn'
  subst hn'
  rw [hrest]
  exact router.findWalk_param n c s post v name ':' hlit hs hc hname

/-- C5 witness: on the router of the test, `/home/:42/xx/yy` returns the param child of `home`
with `order_id` bound to `42`. -/
theorem C5_param_branch_returns_at_once_witness :
    ∃ c, (((treeOf (routerOf testRegs) "GET").children "home").getD (node.fresh "")).paramChild
        = some c ∧
      (routerOf testRegs).findRoute "GET" "/home/:42/xx/yy" =
        .ok (some ⟨c, [("order_id", "42")]⟩, true) :=
  ⟨_, rfl, C5_param_branch_returns_at_once (routerOf testRegs) "GET" "/home/:42/xx/yy"
    (by decide) (treeOf (routerOf testRegs) "GET") rfl ["home"] ":42" ["xx", "yy"] (by decide)
    [.lit "home"] rfl
    (((treeOf (routerOf testRegs) "GET").children "home").getD (node.fresh "")) rfl
    ['4', '2'] rfl rfl _ rfl ['o', 'r', 'd', 'e', 'r', '_', 'i', 'd'] rfl⟩

/-! ## Paths without a parameter segment -/

theorem strings.trimLeft_eq_self (l : List Char) (h : l.head? ≠ some '/') :
    strings.trimLeft l = l := by
  cases l with
  | nil => rfl
  | cons c cs =>
    simp only [List.head?_cons, ne_eq, Option.some.injEq] at h
    exact strings.trimLeft_cons_ne c cs h

theorem strings.trimChars_eq_self (l : List Char) (h1 : l.head? ≠ some '/')
    (h2 : l.getLast? ≠ some '/') : strings.trimChars l = l := by
  unfold strings.trimChars
  rw [strings.trimLeft_eq_self l h1, strings.trimLeft_eq_self _ (by rwa [List.head?_reverse]),
    List.reverse_reverse]

/-- The segments of `/home/x` for a non-empty slash-free `x`. -/
theorem segsOf_home (x : String) (hx : x ≠ "") (hslash : '/' ∉ x.data) :
    segsOf ("/home/" ++ x) = ["home", x] := by
  have hd := String.data_ne_of_ne_empty hx
  have hdata : ("/home/" ++ x).data = '/' :: (['h', 'o', 'm', 'e'] ++ '/' :: x.data) := by
    simp [String.data_append]
  have hlast : (['h', 'o', 'm', 'e'] ++ '/' :: x.data).getLast? ≠ some '/' := by
    have hsplit : x.data = x.data.dropLast ++ [x.data.getLast hd] :=
      (List.dropLast_append_getLast hd).symm
    have hmem : x.data.getLast hd ≠ '/' := fun hcon => hslash (hcon ▸ List.getLast_mem hd)
    rw [hsplit]
    have : (['h', 'o', 'm', 'e'] ++ '/' :: (x.data.dropLast ++ [x.data.getLast hd])) =
        (['h', 'o', 'm', 'e'] ++ '/' :: x.data.dropLast) ++ [x.data.getLast hd] := by simp
    rw [this, List.getLast?_concat]
    simpa using hmem
  have htrim : strings.trimChars ("/home/" ++ x).data = ['h', 'o', 'm', 'e'] ++ '/' :: x.data := by
    rw [hdata]
    have : strings.trimChars ('/' :: (['h', 'o', 'm', 'e'] ++ '/' :: x.data)) =
        strings.trimChars (['h', 'o', 'm', 'e'] ++ '/' :: x.data) := by
      unfold strings.trimChars
      rw [strings.trimLeft, if_pos rfl]
    rw [this, strings.trimChars_eq_self _ (by simp) hlast]
  unfold segsOf strings.Split strings.Trim
  simp only [htrim]
  rw [strings.splitChars_append_slash _ _ (by decide), strings.splitChars_no_slash _ hslash]
  rfl

/-- A lookup over segments none of which begins with `':'` binds no parameter and goes
through no param child. -/
theorem router.findWalk_no_param {H : Type} (tree : node H) (segs : List String)
    (hnp : ∀ s ∈ segs, isParam s = false) (mi : matchInfo H) (b : Bool)
    (hf : router.findWalk tree segs = .ok (some mi, b)) :
    mi.param = [] ∧ ∃ es, Edge.param ∉ es ∧ tree.follow es = some mi.n := by
  induction segs generalizing tree with
  | nil =>
    simp only [router.findWalk, Except.ok.injEq, Prod.mk.injEq, Option.some.injEq] at hf
    obtain ⟨rfl, -⟩ := hf
    exact ⟨rfl, [], by simp, rfl⟩
  | cons seg segs ih =>
    have hseg := hnp seg (List.mem_cons_self _ _)
    have hrest : ∀ s ∈ segs, isParam s = false := fun s hs => hnp s (List.mem_cons_of_mem _ hs)
    cases hc : tree.children seg with
    | some child =>
      rw [router.findWalk_lit tree child seg segs hc] at hf
      obtain ⟨h1, es, h2, h3⟩ := ih child hrest hf
      exact ⟨h1, .lit seg :: es, by simp [h2], by simp [node.follow, node.child, hc, h3]⟩
    | none =>
      by_cases hne : seg = ""
      · subst hne
        rw [router.findWalk, hc] at hf
        cases hf
      · cases hs : tree.starChild with
        | none =>
          rw [router.findWalk_none tree seg segs hc hne (Or.inl hseg) hs] at hf
          simp at hf
        | some sc =>
          rw [router.findWalk_star tree sc seg segs hc hne (Or.inl hseg) hs] at hf
          obtain ⟨h1, es, h2, h3⟩ := ih sc hrest hf
          exact ⟨h1, .star :: es, by simp [h2], by simp [node.follow, node.child, hs, h3]⟩

/-- C6: for every router and every path none of whose segments begins with `':'`, a node
returned by `findRoute` comes with an empty parameter mapping and is reached from the root
through literal and wildcard children only; and with only `/home/:order_id` registered
under GET, `findRoute(GET, "/home/x")` returns found = false for every non-empty slash-free
`x` that does not begin with `':'`. -/
theorem C6_plain_segment_no_param_branch {H : Type} :
    (∀ (r : router H) (m path : String), (∀ s ∈ segsOf path, isParam s = false) →
      ∀ mi b, r.findRoute m path = .ok (some mi, b) →
        mi.param = [] ∧
        ∃ tree es, r.trees m = some tree ∧ Edge.param ∉ es ∧ tree.follow es = some mi.n) ∧
    (∀ (h : H) (x : String), x ≠ "" → '/' ∉ x.data → isParam x = false →
      (newRoute : router H).register [⟨"GET", "/home/:order_id", h⟩] = .ok (orderRouter h) ∧
      (orderRouter h).findRoute "GET" ("/home/" ++ x) = .ok (none, false)) := by
  constructor
  · intro r m path hnp mi b hf
    unfold router.findRoute at hf
    cases htr : r.trees m with
    | none => rw [htr] at hf; simp at hf
    | some tree =>
      rw [htr] at hf
      simp only at hf
      by_cases hroot : path = "/"
      · rw [if_pos hroot] at hf
        simp only [Except.ok.injEq, Prod.mk.injEq, Option.some.injEq] at hf
        obtain ⟨rfl, -⟩ := hf
        exact ⟨rfl, tree, [], rfl, by simp, rfl⟩
      · rw [if_neg hroot] at hf
        obtain ⟨h1, es, h2, h3⟩ := router.findWalk_no_param tree _ hnp mi b hf
        exact ⟨h1, tree, es, rfl, h2, h3⟩
  · intro h x hx hslash hpx
    refine ⟨rfl, ?_⟩
    have hne : ("/home/" ++ x) ≠ "/" := by
      intro hcon
      have := congrArg String.data hcon
      simp [String.data_append] at this
    have htr : (orderRouter h).trees "GET" = some (treeOf (orderRouter h) "GET") := rfl
    unfold router.findRoute
    rw [htr]
    simp only [if_neg hne]
    have hsegs := segsOf_home x hx hslash
    unfold segsOf at hsegs
    rw [hsegs, router.findWalk_lit (treeOf (orderRouter h) "GET")
      (((treeOf (orderRouter h) "GET").children "home").getD (node.fresh "")) "home" _ rfl]
    exact router.findWalk_none _ x [] rfl hx (Or.inl hpx) rfl

/-- C6 witness: `x = "abc"`. -/
theorem C6_plain_segment_no_param_branch_witness :
    (newRoute : router Nat).register [⟨"GET", "/home/:order_id", 0⟩] = .ok (orderRouter 0) ∧
    (orderRouter 0).findRoute "GET" "/home/abc" = .ok (none, false) :=
  (C6_plain_segment_no_param_branch (H := Nat)).2 0 "abc" (by decide) (by decide) rfl

/-! ## Registering twice -/

section twice

variable {H : Type}

theorem node.setChild_setChild (n : node H) (e : Edge) (c c' : node H) :
    (n.setChild e c).setChild e c' = n.setChild e c' := by
  apply node.ext_fields
  · simp
  · intro e'
    simp only [node.child_setChild]
    split <;> rfl
  · simp
  · simp

theorem node.setHandler_setHandler (n : node H) (h h' : Option H) :
    (n.setHandler h).setHandler h' = n.setHandler h' := by
  cases n; rfl

theorem node.setRoute_setHandler_twice (n : node H) (R : String) (h h' : Option H) :
    (((n.setRoute R).setHandler h).setRoute R).setHandler h' = (n.setRoute R).setHandler h' := by
  cases n; rfl

theorem router.setTree_setTree (r : router H) (m : String) (t t' : node H) :
    (r.setTree m t).setTree m t' = r.setTree m t' := by
  apply router.ext_trees
  intro m'
  simp only [router.trees_setTree]
  split <;> rfl

/-- Walking the same segments again from the result of a walk is the same as walking them
from the start. -/
theorem node.addWalk_again (h1 h2 : Option H) (R : String) (segs : List String)
    (n n1 : node H) (hw : node.addWalk h1 R n segs = .ok n1) :
    node.addWalk h2 R n1 segs = node.addWalk h2 R n segs := by
  induction segs generalizing n n1 with
  | nil =>
    rw [node.addWalk_nil] at hw
    simp only [Except.ok.injEq] at hw
    subst hw
    rw [node.addWalk_nil, node.addWalk_nil, node.setRoute_setHandler_twice]
  | cons s segs ih =>
    have hs := node.addWalk_ok_ne h1 R n s segs hw
    obtain ⟨c1, hc1, rfl⟩ := node.addWalk_cons_inv h1 R n s segs hw
    rw [node.addWalk_cons h2 R _ hs, node.addWalk_cons h2 R n hs, node.child_setChild_self]
    simp only [Option.getD_some]
    rw [ih _ c1 hc1]
    cases node.addWalk h2 R ((n.child (edgeOf s)).getD (node.fresh s)) segs with
    | error f => rfl
    | ok c' => simp only [node.setChild_setChild]

/-- Registering a path again gives the router that the second registration alone gives. -/
theorem router.addRoute_again (r r1 : router H) (m p : String) (h1 h2 : Option H)
    (ha : r.addRoute m p h1 = .ok r1) : r1.addRoute m p h2 = r.addRoute m p h2 := by
  obtain ⟨t1, rfl, hcase⟩ := router.addRoute_inv r m p h1 r1 ha
  unfold router.addRoute
  have hroot : (match r.trees m with | some t => t | none => node.fresh "/") =
      (r.trees m).getD (node.fresh "/") := by
    cases r.trees m <;> rfl
  simp only [router.trees_setTree, if_true, hroot, router.setTree_setTree]
  rcases hcase with ⟨hp, rfl⟩ | ⟨hp, hw⟩
  · simp only [if_pos hp, node.setHandler_setHandler]
  · simp only [if_neg hp]
    unfold segsOf at hw
    rw [node.addWalk_again h1 h2 _ _ _ t1 hw]

end twice

/-- C7: for every router `r`, method `m`, path `p` that is `"/"` or has only non-empty
segments, and handlers `h1`, `h2`: `addRoute(m, p, h1)` and then `addRoute(m, p, h2)` return,
and the router they give is equal to the one `addRoute(m, p, h2)` alone gives from `r`; when
`r` has the shape of a built router, the node the registration ends at has handler `h2` in
it, and when moreover no segment of `p` before its last begins with `':'`, `findRoute(m, p)`
returns that node (with found = true when `h2` is not nil). -/
theorem C7_reregistration_last_write_wins {H : Type} (r : router H) (m p : String)
    (h1 h2 : Option H) (hp : okPath p) :
    ∃ r1 r2 t, r.addRoute m p h1 = .ok r1 ∧ r1.addRoute m p h2 = .ok r2 ∧
      r.addRoute m p h2 = .ok r2 ∧
      (r.Wf → r2.nodeAt m (target p) = some t ∧ t.handler = h2) ∧
      (r.Wf → (∀ s ∈ (segsOf p).dropLast, isParam s = false) →
        ∃ mi b, r2.findRoute m p = .ok (some mi, b) ∧ mi.n = t ∧ mi.n.handler = h2 ∧
          (h2 ≠ none → b = true)) := by
  obtain ⟨r1, hr1⟩ := router.addRoute_total r m p h1 hp
  obtain ⟨r2, hr2⟩ := router.addRoute_total r1 m p h2 hp
  have hagain := router.addRoute_again r r1 m p h1 h2 hr1
  have hr2' : r.addRoute m p h2 = .ok r2 := by rw [← hagain]; exact hr2
  by_cases hwf : r.Wf
  · obtain ⟨t, ht, hh, -⟩ := router.addRoute_target r hwf m p h2 r2 hr2'
    refine ⟨r1, r2, t, hr1, hr2, hr2', fun _ => ⟨ht, hh⟩, fun _ hfront => ?_⟩
    have hwf2 := router.addRoute_Wf r hwf m p h2 r2 hr2'
    obtain ⟨mi, b, hmi, hn, hb⟩ := router.findRoute_registered r2 hwf2 m p hp hfront t ht
    exact ⟨mi, b, hmi, hn, by rw [hn]; exact hh, fun h => hb (by rw [hh]; exact h)⟩
  · exact ⟨r1, r2, node.fresh "", hr1, hr2, hr2', fun h => absurd h hwf, fun h => absurd h hwf⟩

/-- C7 witness: `/user/detail/profile` registered twice on the router of the test. -/
theorem C7_reregistration_last_write_wins_witness :
    okPath "/user/detail/profile" ∧
    ∃ r1 r2 t, (routerOf testRegs).addRoute "GET" "/user/detail/profile" (some 1) = .ok r1 ∧
      r1.addRoute "GET" "/user/detail/profile" (some 2) = .ok r2 ∧
      (routerOf testRegs).addRoute "GET" "/user/detail/profile" (some 2) = .ok r2 ∧
      r2.nodeAt "GET" (target "/user/detail/profile") = some t ∧ t.handler = some 2 ∧
      ∃ mi, r2.findRoute "GET" "/user/detail/profile" = .ok (some mi, true) ∧ mi.n = t ∧
        mi.n.handler = some 2 := by
  refine ⟨by decide, ?_⟩
  obtain ⟨r1, r2, t, e1, e2, e3, hnode, hfind⟩ :=
    C7_reregistration_last_write_wins (routerOf testRegs) "GET" "/user/detail/profile"
      (some 1) (some 2) (by decide)
  have hwf : (routerOf testRegs).Wf :=
    router.register_Wf testRegs newRoute _ router.Wf_newRoute rfl
  obtain ⟨mi, b, hmi, hn, hh, hb⟩ := hfind hwf (by decide)
  rw [hb (by simp)] at hmi
  exact ⟨r1, r2, t, e1, e2, e3, (hnode hwf).1, (hnode hwf).2, mi, hmi, hn, hh⟩

/-- C8: for every router and two paths `p`, `q`, neither `"/"`, with the same trimmed form
whose segments are all non-empty: `addRoute(m, p, h)` and `addRoute(m, q, h)` return the same
router, and `findRoute(m, p)` and `findRoute(m, q)` return the same result. -/
theorem C8_slashes_insignificant {H : Type} (r : router H) (m p q : String) (h : Option H)
    (hp : p ≠ "/") (hq : q ≠ "/") (heq : strings.Trim p = strings.Trim q)
    (hne : ∀ s ∈ segsOf p, s ≠ "") :
    (∃ r', r.addRoute m p h = .ok r' ∧ r.addRoute m q h = .ok r') ∧
      r.findRoute m p = r.findRoute m q := by
  have hadd : r.addRoute m q h = r.addRoute m p h := by
    unfold router.addRoute
    simp only [if_neg hp, if_neg hq, heq]
  have hfind : r.findRoute m p = r.findRoute m q := by
    unfold router.findRoute
    simp only [if_neg hp, if_neg hq, heq]
  obtain ⟨r', hr'⟩ := router.addRoute_total r m p h (Or.inr hne)
  exact ⟨⟨r', hr', by rw [hadd]; exact hr'⟩, hfind⟩

/-- C8 witness: `/user/` and `user`. -/
theorem C8_slashes_insignificant_witness :
    (strings.Trim "/user/" = strings.Trim "user") ∧
    (∃ r', (routerOf testRegs).addRoute "GET" "/user/" (some 1) = .ok r' ∧
      (routerOf testRegs).addRoute "GET" "user" (some 1) = .ok r') ∧
    (routerOf testRegs).findRoute "GET" "/user/" = (routerOf testRegs).findRoute "GET" "user" :=
  ⟨by decide, C8_slashes_insignificant (routerOf testRegs) "GET" "/user/" "user" (some 1)
    (by decide) (by decide) (by decide) (by decide)⟩

/-- C9 (code at the failing input): with only `/user` registered under GET, the request
`GET /` makes `findRoute` report found = true with the root, whose handler is nil, and `serve`
calls it: a nil-function panic, no 404.  The same happens at a param child without a handler
(`/a/:id/b` registered, request `/a/:x`). -/
theorem C9_found_node_without_handler_panics :
    (∃ mi, (serverOf [⟨"GET", "/user", echoHandler⟩]).router.findRoute "GET" "/" =
        .ok (some mi, true) ∧ mi.n.handler.isNone = true) ∧
    (serverOf [⟨"GET", "/user", echoHandler⟩]).serve (newContext "GET" "/") =
      .error .nilDeref ∧
    (serverOf [⟨"GET", "/a/:id/b", echoHandler⟩]).serve (newContext "GET" "/a/:x") =
      .error .nilDeref :=
  ⟨⟨_, rfl, rfl⟩, rfl, rfl⟩

/-- C10 (code at the failing input): with `/user/detail/profile` registered under GET, the
matched node has `Route = "user/detail/profile"`, and `serve` calls the handler with the
context's route set to the node's segment text `"profile"`. -/
theorem C10_route_is_segment_text :
    (∃ mi, (serverOf [⟨"GET", "/user/detail/profile", echoHandler⟩]).router.findRoute "GET"
        "/user/detail/profile" = .ok (some mi, true) ∧
      mi.n.Route = "user/detail/profile" ∧ mi.n.path = "profile") ∧
    (serverOf [⟨"GET", "/user/detail/profile", echoHandler⟩]).serve
        (newContext "GET" "/user/detail/profile") =
      .ok { req := ⟨"GET", "/user/detail/profile"⟩, res := [], pathValue := [],
            route := "profile" } :=
  ⟨⟨_, rfl, rfl, rfl⟩, rfl⟩

/-! ## Two parameter names under one parent -/

section paramNames

variable {H : Type}

/-- The registration walk keeps the segment text of every node that was there before. -/
theorem node.addWalk_follow_path (h : Option H) (R : String) (segs : List String)
    (n n' : node H) (hw : node.addWalk h R n segs = .ok n') (es : List Edge) (t : node H)
    (ht : n.follow es = some t) :
    ∃ t', n'.follow es = some t' ∧ t'.path = t.path := by
  induction segs generalizing n n' es with
  | nil =>
    rw [node.addWalk_nil] at hw
    simp only [Except.ok.injEq] at hw
    subst hw
    cases es with
    | nil =>
      simp only [node.follow, Option.some.injEq] at ht
      subst ht
      exact ⟨_, rfl, by simp⟩
    | cons e es =>
      refine ⟨t, ?_, rfl⟩
      simpa [node.follow] using ht
  | cons s segs ih =>
    obtain ⟨c', hc', rfl⟩ := node.addWalk_cons_inv h R n s segs hw
    cases es with
    | nil =>
      simp only [node.follow, Option.some.injEq] at ht
      subst ht
      exact ⟨_, rfl, by simp⟩
    | cons e es =>
      by_cases he : e = edgeOf s
      · subst he
        cases hch : n.child (edgeOf s) with
        | none => simp [node.follow, hch] at ht
        | some c =>
          simp only [node.follow, hch] at ht
          rw [hch] at hc'
          obtain ⟨t', ht', hp⟩ := ih c c' hc' es ht
          exact ⟨t', by simp [node.follow, ht'], hp⟩
      · refine ⟨t, ?_, rfl⟩
        simp only [node.follow, node.child_setChild_ne n c' he]
        simpa [node.follow] using ht

/-- When the parent has no child in the slot of the last segment, the walk creates the
target, and its segment text is that last segment. -/
theorem node.addWalk_new_target_path (h : Option H) (R : String) (pre : List String)
    (s : String) (n n' : node H) (hw : node.addWalk h R n (pre ++ [s]) = .ok n')
    (hnew : ∀ p, n.follow (pre.map edgeOf) = some p → p.child (edgeOf s) = none) :
    ∃ t, n'.follow ((pre ++ [s]).map edgeOf) = some t ∧ t.path = s := by
  induction pre generalizing n n' with
  | nil =>
    obtain ⟨c', hc', hn'⟩ := node.addWalk_cons_inv h R n s [] hw
    rw [hnew n rfl, Option.getD_none, node.addWalk_nil] at hc'
    simp only [Except.ok.injEq] at hc'
    subst hc' hn'
    exact ⟨((node.fresh s).setRoute R).setHandler h, by simp [node.follow], by simp⟩
  | cons x pre ih =>
    obtain ⟨c', hc', rfl⟩ := node.addWalk_cons_inv h R n x (pre ++ [s]) hw
    have hsub : ∀ p, ((n.child (edgeOf x)).getD (node.fresh x)).follow (pre.map edgeOf) = some p →
        p.child (edgeOf s) = none := by
      intro p hp
      cases hch : n.child (edgeOf x) with
      | none =>
        rw [hch] at hp
        obtain ⟨-, rfl⟩ := node.follow_fresh _ _ _ hp
        simp
      | some c =>
        rw [hch] at hp
        exact hnew p (by simpa [node.follow, hch] using hp)
    obtain ⟨t, ht, hp⟩ := ih _ c' hc' hsub
    exact ⟨t, by simpa [node.follow] using ht, hp⟩

theorem target_of_segs {p : String} (hp : p ≠ "/") {segs : List String}
    (hs : segsOf p = segs) : target p = segs.map edgeOf := by
  rw [target_of_ne hp, hs]

theorem edgeOf_colon (a : List Char) : edgeOf (String.mk (':' :: a)) = .param :=
  edgeOf_param_iff.mpr (isParam_eq_true_iff.mpr ⟨a, rfl⟩)

end paramNames

/-- C11 (amended): on a router of the shape `addRoute` builds in which the parent (the node
at the slots of the segments `pre`) has no param child yet, `addRoute` of a path with
segments `pre` then `:a`, followed by `addRoute` of a path with segments `pre` then `:b`,
both return, and the one param child of the parent keeps the segment text `:a`: a
`findRoute` whose walk reaches the parent and takes the parameter edge with the request
segment `:v` returns that child, found = true and the single binding of `a` (the name of
the first registration) to `v`. -/
theorem C11_first_param_name_binds {H : Type} (r : router H) (hwf : r.Wf)
    (m pa pb : String) (h1 h2 : Option H) (pre : List String) (a b : List Char)
    (hpa : pa ≠ "/") (hpb : pb ≠ "/")
    (hsa : segsOf pa = pre ++ [String.mk (':' :: a)])
    (hsb : segsOf pb = pre ++ [String.mk (':' :: b)])
    (hpre : ∀ s ∈ pre, s ≠ "")
    (hnew : ∀ n, r.nodeAt m (pre.map edgeOf) = some n → n.paramChild = none) :
    ∃ r1 r2 c, r.addRoute m pa h1 = .ok r1 ∧ r1.addRoute m pb h2 = .ok r2 ∧
      r2.nodeAt m (pre.map edgeOf ++ [.param]) = some c ∧ c.path = String.mk (':' :: a) ∧
      ∀ (q : String) (qpre post : List String) (v : List Char) (tree : node H),
        q ≠ "/" → r2.trees m = some tree →
        segsOf q = qpre ++ String.mk (':' :: v) :: post →
        router.walkEdges tree qpre = some (pre.map edgeOf) →
        r2.findRoute m q = .ok (some ⟨c, [(String.mk a, String.mk v)]⟩, true) := by
  have hcolon : ∀ x : List Char, String.mk (':' :: x) ≠ "" := by
    intro x hx
    have := congrArg String.data hx
    simp at this
  have hoka : okPath pa := Or.inr (by
    rw [hsa]
    intro s hs
    rcases List.mem_append.mp hs with hs | hs
    · exact hpre s hs
    · simp only [List.mem_singleton] at hs
      rw [hs]; exact hcolon a)
  have hokb : okPath pb := Or.inr (by
    rw [hsb]
    intro s hs
    rcases List.mem_append.mp hs with hs | hs
    · exact hpre s hs
    · simp only [List.mem_singleton] at hs
      rw [hs]; exact hcolon b)
  obtain ⟨r1, hr1⟩ := router.addRoute_total r m pa h1 hoka
  obtain ⟨r2, hr2⟩ := router.addRoute_total r1 m pb h2 hokb
  have hwf1 := router.addRoute_Wf r hwf m pa h1 r1 hr1
  have hwf2 := router.addRoute_Wf r1 hwf1 m pb h2 r2 hr2
  have htarget : ∀ x : List Char,
      (pre ++ [String.mk (':' :: x)]).map edgeOf = pre.map edgeOf ++ [.param] := by
    intro x
    simp [edgeOf_colon]
  -- the first registration creates the param child, named `:a`
  have hc1 : ∃ c1, r1.nodeAt m (pre.map edgeOf ++ [.param]) = some c1 ∧
      c1.path = String.mk (':' :: a) := by
    obtain ⟨tree1, rfl, hcase⟩ := router.addRoute_inv r m pa h1 r1 hr1
    rcases hcase with ⟨hp, -⟩ | ⟨-, hw⟩
    · exact absurd hp hpa
    · rw [hsa] at hw
      rw [router.nodeAt_setTree_self, ← htarget a]
      refine node.addWalk_new_target_path _ _ pre _ _ tree1 hw ?_
      intro p hp
      rw [edgeOf_colon]
      cases htr : r.trees m with
      | none =>
        rw [htr] at hp
        obtain ⟨-, rfl⟩ := node.follow_fresh _ _ _ hp
        simp
      | some tree =>
        rw [htr] at hp
        exact hnew p (by simpa [router.nodeAt, htr] using hp)
  obtain ⟨c1, hc1, hc1p⟩ := hc1
  -- the second registration finds it and keeps its name
  have hc2 : ∃ c2, r2.nodeAt m (pre.map edgeOf ++ [.param]) = some c2 ∧ c2.path = c1.path := by
    obtain ⟨tree2, rfl, hcase⟩ := router.addRoute_inv r1 m pb h2 r2 hr2
    rcases hcase with ⟨hp, -⟩ | ⟨-, hw⟩
    · exact absurd hp hpb
    · rw [router.nodeAt_setTree_self]
      unfold router.nodeAt at hc1
      cases htr : r1.trees m with
      | none => rw [htr] at hc1; cases hc1
      | some tree1 =>
        rw [htr] at hc1 hw
        exact node.addWalk_follow_path _ _ _ _ tree2 hw _ c1 hc1
  obtain ⟨c2, hc2, hc2p⟩ := hc2
  refine ⟨r1, r2, c2, hr1, hr2, hc2, by rw [hc2p, hc1p], ?_⟩
  intro q qpre post v tree hq htree hsq hwalk
  unfold router.findRoute
  rw [htree]
  simp only [if_neg hq]
  unfold segsOf at hsq
  rw [hsq]
  obtain ⟨n, hn, hrest⟩ := router.findWalk_append tree qpre _ hwalk
  rw [hrest]
  have hgood : tree.Good := (hwf2 m tree htree).2.2
  have hng := hgood.follow hn
  have hpc : n.paramChild = some c2 := by
    unfold router.nodeAt at hc2
    rw [htree] at hc2
    simp only at hc2
    rw [node.follow_append, hn] at hc2
    simp only [Option.some_bind, node.follow] at hc2
    cases hch : n.child .param with
    | none => rw [hch] at hc2; cases hc2
    | some c =>
      rw [hch] at hc2
      simp only [Option.some.injEq] at hc2
      rw [← hc2]
      exact hch
  have hkey : n.children (String.mk (':' :: v)) = none := by
    cases hk : n.children (String.mk (':' :: v)) with
    | none => rfl
    | some k =>
      have := (hng.key hk).2.1
      rw [isParam_eq_true_iff.mpr ⟨v, rfl⟩] at this
      cases this
  exact router.findWalk_param n c2 _ post v a ':' hkey rfl hpc (by rw [hc2p, hc1p])

/-- C11 witness: `/u/:a` then `/u/:b` on the empty router; `/u/:7` binds `a`. -/
theorem C11_first_param_name_binds_witness :
    ∃ r1 r2 c, (newRoute : router Nat).addRoute "GET" "/u/:a" (some 1) = .ok r1 ∧
      r1.addRoute "GET" "/u/:b" (some 2) = .ok r2 ∧
      r2.nodeAt "GET" [.lit "u", .param] = some c ∧ c.path = ":a" ∧
      r2.findRoute "GET" "/u/:7" = .ok (some ⟨c, [("a", "7")]⟩, true) := by
  obtain ⟨r1, r2, c, e1, e2, hc, hp, hfind⟩ := C11_first_param_name_binds
    (newRoute : router Nat) router.Wf_newRoute "GET" "/u/:a" "/u/:b" (some 1) (some 2)
    ["u"] ['a'] ['b'] (by decide) (by decide) (by decide) (by decide) (by decide)
    (fun n hn => by simp [router.nodeAt, newRoute] at hn)
  have hr2 : r2 = routerOf [⟨"GET", "/u/:a", 1⟩, ⟨"GET", "/u/:b", 2⟩] := by
    have e1' : (newRoute : router Nat).addRoute "GET" "/u/:a" (some 1) =
        .ok (routerOf [⟨"GET", "/u/:a", 1⟩]) := rfl
    rw [e1'] at e1
    simp only [Except.ok.injEq] at e1
    subst e1
    have e2' : (routerOf [⟨"GET", "/u/:a", 1⟩]).addRoute "GET" "/u/:b" (some 2) =
        .ok (routerOf [⟨"GET", "/u/:a", 1⟩, ⟨"GET", "/u/:b", 2⟩]) := rfl
    rw [e2'] at e2
    simp only [Except.ok.injEq] at e2
    exact e2.symm
  subst hr2
  exact ⟨_, _, c, e1, e2, hc, hp, hfind "/u/:7" ["u"] [] ['7']
    (treeOf (routerOf [⟨"GET", "/u/:a", 1⟩, ⟨"GET", "/u/:b", 2⟩]) "GET")
    (by decide) rfl (by decide) rfl⟩

/-- C11 counterexample: after `/u/:a` then `/u/:b` on the empty router, `findRoute` on `/u/:7`
takes the parameter edge and binds `a`, not `b`. -/
theorem C11_counterexample :
    ∃ r mi, (newRoute : router Nat).register [⟨"GET", "/u/:a", 1⟩, ⟨"GET", "/u/:b", 2⟩] = .ok r ∧
      r.findRoute "GET" "/u/:7" = .ok (some mi, true) ∧
      mi.param = [("a", "7")] ∧ mi.param ≠ [("b", "7")] ∧ mi.n.handler = some 2 :=
  ⟨_, _, rfl, rfl, rfl, by decide, rfl⟩

/-! ## A wildcard consumes one segment -/

theorem subPath_data_cons (x : String) (xs : List String) :
    (subPath (x :: xs)).data = '/' :: (x.data ++ (subPath xs).data) := by
  simp [subPath, String.data_append]

theorem strings.splitChars_append_subPath (a : List Char) (ha : '/' ∉ a) (xs : List String)
    (hslash : ∀ x ∈ xs, '/' ∉ x.data) :
    strings.splitChars (a ++ (subPath xs).data) = a :: xs.map String.data := by
  induction xs generalizing a with
  | nil =>
    have hnil : (subPath ([] : List String)).data = [] := rfl
    rw [hnil, List.append_nil]
    exact strings.splitChars_no_slash a ha
  | cons x xs ih =>
    rw [subPath_data_cons, strings.splitChars_append_slash a _ ha,
      ih x.data (hslash x (List.mem_cons_self _ _))
        (fun y hy => hslash y (List.mem_cons_of_mem _ hy))]
    rfl

theorem getLast?_append_subPath (a : List Char) (ha : a.getLast? ≠ some '/') (hne : a ≠ [])
    (xs : List String) (hx : ∀ x ∈ xs, x ≠ "") (hslash : ∀ x ∈ xs, '/' ∉ x.data) :
    (a ++ (subPath xs).data).getLast? ≠ some '/' ∧ a ++ (subPath xs).data ≠ [] := by
  induction xs generalizing a with
  | nil =>
    have hnil : (subPath ([] : List String)).data = [] := rfl
    rw [hnil, List.append_nil]
    exact ⟨ha, hne⟩
  | cons x xs ih =>
    have hd := String.data_ne_of_ne_empty (hx x (List.mem_cons_self _ _))
    have hsl := hslash x (List.mem_cons_self _ _)
    rw [subPath_data_cons]
    have hre : a ++ '/' :: (x.data ++ (subPath xs).data) =
        (a ++ '/' :: x.data) ++ (subPath xs).data := by simp
    rw [hre]
    refine ih (a ++ '/' :: x.data) ?_ (by simp)
      (fun y hy => hx y (List.mem_cons_of_mem _ hy))
      (fun y hy => hslash y (List.mem_cons_of_mem _ hy))
    have hsplit : x.data = x.data.dropLast ++ [x.data.getLast hd] :=
      (List.dropLast_append_getLast hd).symm
    have hmem : x.data.getLast hd ≠ '/' := fun hcon => hsl (hcon ▸ List.getLast_mem hd)
    rw [hsplit]
    have : a ++ '/' :: (x.data.dropLast ++ [x.data.getLast hd]) =
        (a ++ '/' :: x.data.dropLast) ++ [x.data.getLast hd] := by simp
    rw [this, List.getLast?_concat]
    simpa using hmem

/-- The segments of `/a/x_1/.../x_k` for non-empty slash-free `x_i`. -/
theorem segsOf_a_subPath (xs : List String) (hx : ∀ x ∈ xs, x ≠ "")
    (hslash : ∀ x ∈ xs, '/' ∉ x.data) : segsOf ("/a" ++ subPath xs) = "a" :: xs := by
  have hdata : ("/a" ++ subPath xs).data = '/' :: (['a'] ++ (subPath xs).data) := by
    simp [String.data_append]
  have hlast := getLast?_append_subPath ['a'] (by simp) (by simp) xs hx hslash
  have htrim : strings.trimChars ("/a" ++ subPath xs).data = ['a'] ++ (subPath xs).data := by
    rw [hdata]
    have : strings.trimChars ('/' :: (['a'] ++ (subPath xs).data)) =
        strings.trimChars (['a'] ++ (subPath xs).data) := by
      unfold strings.trimChars
      rw [strings.trimLeft, if_pos rfl]
    rw [this, strings.trimChars_eq_self _ (by simp) hlast.1]
  unfold segsOf strings.Split strings.Trim
  simp only [htrim]
  rw [strings.splitChars_append_subPath ['a'] (by decide) xs hslash]
  simp only [List.map_cons, List.map_map]
  congr 1
  exact List.map_id'' (fun _ => rfl) xs

/-- C12: on a router without a tree for method `m`, after `addRoute(m, "/a/*", h)` with a
non-nil handler: for every list of non-empty slash-free segments `x_1 .. x_k`,
`findRoute(m, "/a/x_1/.../x_k")` returns, with found = true exactly when `k = 1`, and for
`k = 1` the node returned is the wildcard child of `a`, whose segment text is `"*"`. -/
theorem C12_wildcard_one_segment {H : Type} (r : router H) (m : String) (h : H)
    (hnone : r.trees m = none) (xs : List String) (hx : ∀ x ∈ xs, x ≠ "")
    (hslash : ∀ x ∈ xs, '/' ∉ x.data) :
    ∃ r' a sc, r.addRoute m "/a/*" (some h) = .ok r' ∧
      (treeOf r' m).children "a" = some a ∧ a.starChild = some sc ∧ sc.path = "*" ∧
      ∃ mi found, r'.findRoute m ("/a" ++ subPath xs) = .ok (mi, found) ∧
        (found = true ↔ xs.length = 1) ∧ (xs.length = 1 → mi = some ⟨sc, []⟩) := by
  have hadd : r.addRoute m "/a/*" (some h) = .ok (r.setTree m (wildRoot h)) := by
    unfold router.addRoute
    rw [hnone]
    rfl
  have htree : (r.setTree m (wildRoot h)).trees m = some (wildRoot h) := by
    simp
  refine ⟨_, wildParent h, wildLeaf h, hadd, ?_, rfl, rfl, ?_⟩
  · unfold treeOf
    rw [htree]
    rfl
  · have hne : ("/a" ++ subPath xs) ≠ "/" := by
      intro hcon
      have := congrArg String.data hcon
      simp [String.data_append] at this
    unfold router.findRoute
    rw [htree]
    simp only [if_neg hne]
    have hsegs := segsOf_a_subPath xs hx hslash
    unfold segsOf at hsegs
    rw [hsegs, router.findWalk_lit (wildRoot h) (wildParent h) "a" xs rfl]
    cases xs with
    | nil => exact ⟨_, false, rfl, by simp, by simp⟩
    | cons x xs =>
      rw [router.findWalk_star (wildParent h) (wildLeaf h) x xs
        rfl (hx x (List.mem_cons_self _ _)) (Or.inr rfl) rfl]
      cases xs with
      | nil => exact ⟨_, true, rfl, by simp, fun _ => rfl⟩
      | cons y ys =>
        rw [router.findWalk_none (wildLeaf h) y ys rfl
          (hx y (List.mem_cons_of_mem _ (List.mem_cons_self _ _))) (Or.inr rfl) rfl]
        exact ⟨none, false, rfl, by simp, by simp⟩

/-- C12 witness: `/user/*`-style lookup with one segment, `x_1 = "abc"`. -/
theorem C12_wildcard_one_segment_witness :
    ∃ r' a sc, (newRoute : router Nat).addRoute "GET" "/a/*" (some 0) = .ok r' ∧
      (treeOf r' "GET").children "a" = some a ∧ a.starChild = some sc ∧ sc.path = "*" ∧
      r'.findRoute "GET" "/a/abc" = .ok (some ⟨sc, []⟩, true) := by
  obtain ⟨r', a, sc, hadd, ha, hsc, hp, mi, found, hfind, hiff, hmi⟩ :=
    C12_wildcard_one_segment (newRoute : router Nat) "GET" 0 rfl ["abc"] (by decide)
      (by decide)
  rw [hmi rfl, hiff.mpr rfl] at hfind
  exact ⟨r', a, sc, hadd, ha, hsc, hp, hfind⟩

/-! ## Absent methods -/

/-- Registrations under other methods leave a method without a tree. -/
theorem router.register_trees_none {H : Type} (regs : List (Registration H))
    (r r' : router H) (h : r.register regs = .ok r') (m : String)
    (hm : ∀ reg ∈ regs, reg.method ≠ m) (hnone : r.trees m = none) : r'.trees m = none := by
  induction regs generalizing r with
  | nil =>
    simp only [router.register, Except.ok.injEq] at h
    exact h ▸ hnone
  | cons reg regs ih =>
    obtain ⟨r1, h1, h2⟩ := router.register_cons_inv r reg regs r' h
    obtain ⟨tree', rfl, -⟩ := router.addRoute_inv r _ _ _ r1 h1
    refine ih _ h2 (fun x hx => hm x (List.mem_cons_of_mem _ hx)) ?_
    rw [router.trees_setTree, if_neg (fun heq => hm reg (List.mem_cons_self _ _) heq.symm)]
    exact hnone

/-- C13: after `addRoute(GET, "/", h)` on the empty router, `findRoute(GET, "/")` returns
found = true with the GET root, whose segment text is `"/"` and whose handler is `h`; and on
every router built from the empty one, for every method no registration was made under and
every path, `findRoute` returns no match info and found = false. -/
theorem C13_root_only_and_absent_method {H : Type} :
    (∀ h : H, ∃ r root, (newRoute : router H).addRoute "GET" "/" (some h) = .ok r ∧
      r.trees "GET" = some root ∧ root.path = "/" ∧ root.handler = some h ∧
      r.findRoute "GET" "/" = .ok (some ⟨root, []⟩, true) ∧
      r.findRoute "POST" "/" = .ok (none, false)) ∧
    (∀ (regs : List (Registration H)) (r : router H),
      (newRoute : router H).register regs = .ok r →
      ∀ m : String, (∀ reg ∈ regs, reg.method ≠ m) →
      ∀ path : String, r.findRoute m path = .ok (none, false)) := by
  constructor
  · intro h
    exact ⟨_, _, rfl, rfl, rfl, rfl, rfl, rfl⟩
  · intro regs r hr m hm path
    have hnone := router.register_trees_none regs _ r hr m hm rfl
    unfold router.findRoute
    rw [hnone]

/-- C13 witness: the registrations of `userRegs` are all under GET; POST has no tree. -/
theorem C13_root_only_and_absent_method_witness :
    (newRoute : router Nat).register userRegs = .ok (routerOf userRegs) ∧
    (routerOf userRegs).findRoute "POST" "/user" = .ok (none, false) :=
  ⟨rfl, (C13_root_only_and_absent_method (H := Nat)).2 userRegs (routerOf userRegs) rfl "POST"
    (by decide) "/user"⟩

/-! ## `Use` and short-circuiting middlewares -/

theorem HTTPServe.ServeHTTP_eq_foldr (h : HTTPServe) (res : List ResOp) (req : Request) :
    h.ServeHTTP res req =
      h.mw.foldr (fun m acc => m acc) h.serve
        { req := req, res := res, pathValue := [], route := "" } := by
  unfold HTTPServe.ServeHTTP
  simp only [HTTPServe.wrap_length]

/-- C14: after `Use(A...)` and then `Use(B...)` the configured chain is exactly `B`, and
`ServeHTTP` runs the middlewares of `B`, the first outermost, around `serve`, as if `Use(A...)`
had never been called. -/
theorem C14_use_replaces (h : HTTPServe) (A B : List Middleware) (res : List ResOp)
    (req : Request) :
    ((h.Use A).Use B).mw = B ∧
    ((h.Use A).Use B).ServeHTTP res req =
      B.foldr (fun m acc => m acc) h.serve
        { req := req, res := res, pathValue := [], route := "" } ∧
    ((h.Use A).Use B).ServeHTTP res req = (h.Use B).ServeHTTP res req :=
  ⟨rfl, HTTPServe.ServeHTTP_eq_foldr _ res req, rfl⟩

/-- C15: when the middleware `mk` at index `k = pre.length` of the chain gives the same
decorated handler whatever inner handler it is given, the handler `ServeHTTP` runs is the
middlewares before `mk` around `mk g` for any `g` at all (a panicking one included), so what
it does is the same for every choice of the later middlewares and of the route table. -/
theorem C15_short_circuit (pre post post' : List Middleware) (mk : Middleware)
    (hconst : ∀ f g : HandlerFunc, mk f = mk g) (r r' : router HandlerFunc)
    (res : List ResOp) (req : Request) :
    (∀ g : HandlerFunc, HTTPServe.ServeHTTP ⟨r, pre ++ mk :: post⟩ res req =
      pre.foldr (fun m acc => m acc) (mk g)
        { req := req, res := res, pathValue := [], route := "" }) ∧
    HTTPServe.ServeHTTP ⟨r, pre ++ mk :: post⟩ res req =
      HTTPServe.ServeHTTP ⟨r', pre ++ mk :: post'⟩ res req := by
  have key : ∀ (rt : router HandlerFunc) (ps : List Middleware) (g : HandlerFunc),
      HTTPServe.ServeHTTP ⟨rt, pre ++ mk :: ps⟩ res req =
        pre.foldr (fun m acc => m acc) (mk g)
          { req := req, res := res, pathValue := [], route := "" } := by
    intro rt ps g
    rw [HTTPServe.ServeHTTP_eq_foldr]
    simp only [List.foldr_append, List.foldr_cons]
    rw [hconst _ g]
  exact ⟨key r post, by rw [key r post panicHandler, key r' post' panicHandler]⟩

/-- C15 witness: `denyAll` between two recording middlewares; the inner recorder, the route
table and the 404 of `serve` leave no trace. -/
theorem C15_short_circuit_witness :
    HTTPServe.ServeHTTP ⟨newRoute, [recorder "A" "a", denyAll "no", recorder "B" "b"]⟩ []
        ⟨"GET", "/"⟩ =
      .ok { req := ⟨"GET", "/"⟩, res := [.Write "A", .Write "no", .Write "a"],
            pathValue := [], route := "" } ∧
    HTTPServe.ServeHTTP ⟨newRoute, [recorder "A" "a", denyAll "no", recorder "B" "b"]⟩ []
        ⟨"GET", "/"⟩ =
      HTTPServe.ServeHTTP ⟨recServer.router, [recorder "A" "a", denyAll "no"]⟩ [] ⟨"GET", "/"⟩ :=
  ⟨((C15_short_circuit [recorder "A" "a"] [recorder "B" "b"] [] (denyAll "no")
      (fun _ _ => rfl) newRoute recServer.router [] ⟨"GET", "/"⟩).1 panicHandler).trans rfl,
    (C15_short_circuit [recorder "A" "a"] [recorder "B" "b"] [] (denyAll "no")
      (fun _ _ => rfl) newRoute recServer.router [] ⟨"GET", "/"⟩).2⟩

/-- C16 (code at the failing input): on the text of `2^63`, which is below `2^64`,
`ToUint64` returns `2^63 - 1` and a range error, as `ToInt64` does; on the text of
`2^63 - 1` it returns the number and no error, and a held error comes back with `0`. -/
theorem C16_ToUint64_parses_int64 :
    value.ToUint64 ⟨"9223372036854775808", none⟩ = (9223372036854775807, some .ErrRange) ∧
    value.ToUint64 ⟨"18446744073709551615", none⟩ = (9223372036854775807, some .ErrRange) ∧
    value.ToUint64 ⟨"9223372036854775807", none⟩ = (9223372036854775807, none) ∧
    (∀ (s : String) (e : GoError), value.ToUint64 ⟨s, some e⟩ = (0, some e)) ∧
    (∀ v : value, value.ToUint64 v = value.ToInt64 v) := by
  refine ⟨by decide, by decide, by decide, fun _ _ => rfl, fun _ => rfl⟩

/-! ## Precedence of the lookup -/

/-- C17 (amended): at a node `n` of the shape `addRoute` builds and a non-empty segment `s`,
whatever segments follow: a literal child keyed `s` is descended into, whatever other
children `n` has; otherwise, if `s` begins with `':'` and `n` has a param child, the lookup
returns that child with the one binding, whether or not `n` has a wildcard child; otherwise
the wildcard child is descended into if there is one; otherwise the result is no match and
found = false. -/
theorem C17_lookup_precedence {H : Type} (n : node H) (hg : n.Good) (s : String)
    (hs : s ≠ "") (rest : List String) :
    (∀ c, n.children s = some c → router.findWalk n (s :: rest) = router.findWalk c rest) ∧
    (n.children s = none → isParam s = true → ∀ pc, n.paramChild = some pc →
      ∃ name v, pc.path.data = ':' :: name ∧ s.data = ':' :: v ∧
        router.findWalk n (s :: rest) =
          .ok (some ⟨pc, [(String.mk name, String.mk v)]⟩, true)) ∧
    (n.children s = none → (isParam s = false ∨ n.paramChild = none) →
      ∀ sc, n.starChild = some sc →
        router.findWalk n (s :: rest) = router.findWalk sc rest) ∧
    (n.children s = none → (isParam s = false ∨ n.paramChild = none) →
      n.starChild = none → router.findWalk n (s :: rest) = .ok (none, false)) := by
  refine ⟨fun c hc => router.findWalk_lit n c s rest hc, ?_, ?_, ?_⟩
  · intro hc hp pc hpc
    obtain ⟨v, hv⟩ := isParam_eq_true_iff.mp hp
    have hpp : isParam pc.path = true := edgeOf_param_iff.mp (hg.child (e := .param) hpc).1
    obtain ⟨name, hname⟩ := isParam_eq_true_iff.mp hpp
    exact ⟨name, v, hname, hv, router.findWalk_param n pc s rest v name ':' hc hv hpc hname⟩
  · intro hc hp sc hsc
    exact router.findWalk_star n sc s rest hc hs hp hsc
  · intro hc hp hsc
    exact router.findWalk_none n s rest hc hs hp hsc

/-- C17 witness: on the router of the test the node `user` has a wildcard child and a
literal child `detail`; `/user/detail/profile` goes through the literal child and resolves
to the node `profile`. -/
theorem C17_lookup_precedence_witness :
    ∃ sc, (litChild (treeOf (routerOf testRegs) "GET") "user").starChild = some sc ∧
      (routerOf testRegs).findRoute "GET" "/user/detail/profile" =
        .ok (some ⟨litChild (litChild (litChild (treeOf (routerOf testRegs) "GET") "user")
          "detail") "profile", []⟩, true) ∧
      (litChild (litChild (litChild (treeOf (routerOf testRegs) "GET") "user")
          "detail") "profile").path = "profile" := by
  have hwf : (routerOf testRegs).Wf :=
    router.register_Wf testRegs newRoute _ router.Wf_newRoute rfl
  have hroot : (treeOf (routerOf testRegs) "GET").Good :=
    (hwf "GET" (treeOf (routerOf testRegs) "GET") rfl).2.2
  have huser : (litChild (treeOf (routerOf testRegs) "GET") "user").Good :=
    (hroot.child (e := .lit "user") rfl).2
  have hstep := (C17_lookup_precedence (litChild (treeOf (routerOf testRegs) "GET") "user")
    huser "detail" (by decide) ["profile"]).1
    (litChild (litChild (treeOf (routerOf testRegs) "GET") "user") "detail") rfl
  refine ⟨_, rfl, ?_, rfl⟩
  exact (rfl : (routerOf testRegs).findRoute "GET" "/user/detail/profile" =
    router.findWalk (litChild (treeOf (routerOf testRegs) "GET") "user")
      ["detail", "profile"]).trans (hstep.trans rfl)

/-- C17 counterexample: with `/a/*` registered under GET, the node `a` has a wildcard child,
no literal child keyed by the empty segment, and the empty segment does not begin with `':'`;
yet at `a` the lookup of `/a//b` neither takes the wildcard child nor reports not found: it
panics on the first character of the empty segment.  And at a node that `addRoute` cannot
build, whose param child has an empty segment text, a segment beginning with `':'` does not
take the param child: the slice of its name panics. -/
theorem C17_counterexample :
    (∃ a sc, (treeOf (routerOf [⟨"GET", "/a/*", 0⟩] : router Nat) "GET").children "a" = some a ∧
      a.children "" = none ∧ isParam "" = false ∧ a.starChild = some sc ∧
      segsOf "/a//b" = ["a", "", "b"] ∧
      router.findWalk a ["", "b"] = .error .indexOutOfRange ∧
      (routerOf [⟨"GET", "/a/*", 0⟩] : router Nat).findRoute "GET" "/a//b" =
        .error .indexOutOfRange) ∧
    router.findWalk ((node.fresh "x" : node Nat).setChild .param (node.fresh "")) [":v"] =
      .error .sliceOutOfRange :=
  ⟨⟨_, _, rfl, rfl, rfl, rfl, by decide, rfl, rfl⟩, rfl⟩

/-! ## The handler invariant -/

/-- C18: in a router built from the empty one by registrations with non-nil handlers, the
root of every method's tree has segment text `"/"`, and the node at any position of a tree
has a non-nil handler if and only if some registration under that method ended at exactly
that position. -/
theorem C18_handler_iff_registered {H : Type} (regs : List (Registration H)) (r : router H)
    (hr : (newRoute : router H).register regs = .ok r) :
    (∀ m root, r.trees m = some root → root.path = "/") ∧
    (∀ m es t, r.nodeAt m es = some t →
      (t.handler ≠ none ↔ ∃ reg ∈ regs, reg.method = m ∧ target reg.path = es)) := by
  have hwf := router.register_Wf regs _ r router.Wf_newRoute hr
  refine ⟨fun m root hroot => (hwf m root hroot).1, fun m es t ht => ⟨?_, ?_⟩⟩
  · exact router.handler_registered regs r hr m es t ht
  · rintro ⟨reg, hreg, hm, he⟩
    obtain ⟨t', ht', hh'⟩ := router.register_target_handler regs _ r router.Wf_newRoute hr
      reg hreg
    rw [hm, he, ht] at ht'
    simp only [Option.some.injEq] at ht'
    rw [ht']
    exact hh'

/-- C18 witness: after `/user`, `/user/detail/profile` and `/user/*` under GET, the root is
`"/"`, the node `detail`, only an intermediate hop, has a nil handler, and the node `profile`
has a handler. -/
theorem C18_handler_iff_registered_witness :
    (newRoute : router Nat).register userRegs = .ok (routerOf userRegs) ∧
    (treeOf (routerOf userRegs) "GET").path = "/" ∧
    (routerOf userRegs).nodeAt "GET" [.lit "user", .lit "detail"] =
      some (litChild (litChild (treeOf (routerOf userRegs) "GET") "user") "detail") ∧
    (litChild (litChild (treeOf (routerOf userRegs) "GET") "user") "detail").handler = none ∧
    (litChild (litChild (litChild (treeOf (routerOf userRegs) "GET") "user") "detail")
      "profile").handler ≠ none := by
  have hC := C18_handler_iff_registered userRegs (routerOf userRegs) rfl
  refine ⟨rfl, hC.1 "GET" _ rfl, rfl, ?_, ?_⟩
  · have h1 := (hC.2 "GET" [.lit "user", .lit "detail"] _ rfl).not
    simp only [ne_eq, not_not] at h1
    exact h1.mpr (by decide)
  · exact (hC.2 "GET" [.lit "user", .lit "detail", .lit "profile"] _ rfl).mpr (by decide)

/-! ## Faults -/

section faults

variable {H : Type}

/-- A registration walk that panics does so on the first character of an empty segment. -/
theorem node.addWalk_error (h : Option H) (R : String) (segs : List String) (n : node H)
    (f : Fault) (hw : node.addWalk h R n segs = .error f) :
    f = .indexOutOfRange ∧ "" ∈ segs := by
  induction segs generalizing n with
  | nil => rw [node.addWalk_nil] at hw; cases hw
  | cons s segs ih =>
    by_cases hs : s = ""
    · subst hs
      rw [node.addWalk, node.getChild_empty] at hw
      simp only [Except.error.injEq] at hw
      exact ⟨hw.symm, List.mem_cons_self _ _⟩
    · rw [node.addWalk_cons h R n hs] at hw
      cases hc : node.addWalk h R ((n.child (edgeOf s)).getD (node.fresh s)) segs with
      | ok c' => rw [hc] at hw; cases hw
      | error g =>
        rw [hc] at hw
        simp only [Except.error.injEq] at hw
        subst hw
        obtain ⟨h1, h2⟩ := ih _ hc
        exact ⟨h1, List.mem_cons_of_mem _ h2⟩

/-- A registration walk that returns has seen no empty segment. -/
theorem node.addWalk_ok_all_ne (h : Option H) (R : String) (segs : List String)
    (n n' : node H) (hw : node.addWalk h R n segs = .ok n') : ∀ s ∈ segs, s ≠ "" := by
  induction segs generalizing n n' with
  | nil => intro s hs; cases hs
  | cons x segs ih =>
    have hx := node.addWalk_ok_ne h R n x segs hw
    obtain ⟨c', hc', -⟩ := node.addWalk_cons_inv h R n x segs hw
    intro s hs
    rcases List.mem_cons.mp hs with rfl | hs
    · exact hx
    · exact ih _ c' hc' s hs

/-- On a well-shaped trie a lookup that panics does so on the first character of an empty
segment. -/
theorem router.findWalk_error (tree : node H) (hg : tree.Good) (segs : List String)
    (f : Fault) (hw : router.findWalk tree segs = .error f) :
    f = .indexOutOfRange ∧ "" ∈ segs := by
  induction segs generalizing tree with
  | nil => simp [router.findWalk] at hw
  | cons s segs ih =>
    cases hc : tree.children s with
    | some c =>
      rw [router.findWalk_lit tree c s segs hc] at hw
      obtain ⟨h1, h2⟩ := ih c (hg.child (e := .lit s) hc).2 hw
      exact ⟨h1, List.mem_cons_of_mem _ h2⟩
    | none =>
      by_cases hs : s = ""
      · subst hs
        rw [router.findWalk, hc] at hw
        simp only [Except.error.injEq] at hw
        exact ⟨hw.symm, List.mem_cons_self _ _⟩
      · by_cases hp : isParam s = true ∧ ∃ pc, tree.paramChild = some pc
        · obtain ⟨hp, pc, hpc⟩ := hp
          obtain ⟨v, hv⟩ := isParam_eq_true_iff.mp hp
          have hpp : isParam pc.path = true :=
            edgeOf_param_iff.mp (hg.child (e := .param) hpc).1
          obtain ⟨name, hname⟩ := isParam_eq_true_iff.mp hpp
          rw [router.findWalk_param tree pc s segs v name ':' hc hv hpc hname] at hw
          cases hw
        · have hp' : isParam s = false ∨ tree.paramChild = none := by
            by_cases h1 : isParam s = true
            · right
              cases hpc : tree.paramChild with
              | none => rfl
              | some pc => exact absurd ⟨h1, pc, hpc⟩ hp
            · left
              simpa using h1
          cases hsc : tree.starChild with
          | none =>
            rw [router.findWalk_none tree s segs hc hs hp' hsc] at hw
            cases hw
          | some sc =>
            rw [router.findWalk_star tree sc s segs hc hs hp' hsc] at hw
            obtain ⟨h1, h2⟩ := ih sc (hg.child (e := .star) hsc).2 hw
            exact ⟨h1, List.mem_cons_of_mem _ h2⟩

/-- A panic of `addRoute` is the index panic on an empty segment. -/
theorem router.addRoute_error (r : router H) (m p : String) (h : Option H) (f : Fault)
    (ha : r.addRoute m p h = .error f) : f = .indexOutOfRange ∧ "" ∈ segsOf p := by
  unfold router.addRoute at ha
  by_cases hp : p = "/"
  · rw [if_pos hp] at ha
    cases ha
  · rw [if_neg hp] at ha
    cases hw : node.addWalk h (strings.Trim p)
        (match r.trees m with | some t => t | none => node.fresh "/")
        (strings.Split (strings.Trim p)) with
    | ok t => simp only [hw] at ha; cases ha
    | error g =>
      simp only [hw, Except.error.injEq] at ha
      subst ha
      exact node.addWalk_error _ _ _ _ _ hw

/-- When `addRoute` returns, the path is `"/"` or has only non-empty segments. -/
theorem router.addRoute_ok_okPath (r r' : router H) (m p : String) (h : Option H)
    (ha : r.addRoute m p h = .ok r') : okPath p := by
  obtain ⟨tree', -, hcase⟩ := router.addRoute_inv r m p h r' ha
  rcases hcase with ⟨hp, -⟩ | ⟨-, hw⟩
  · exact Or.inl hp
  · exact Or.inr (node.addWalk_ok_all_ne _ _ _ _ _ hw)

/-- On a router of the shape `addRoute` builds, a panic of `findRoute` is the index panic on
an empty segment. -/
theorem router.findRoute_error (r : router H) (hr : r.Wf) (m p : String) (f : Fault)
    (hf : r.findRoute m p = .error f) : f = .indexOutOfRange ∧ "" ∈ segsOf p := by
  unfold router.findRoute at hf
  cases htr : r.trees m with
  | none => rw [htr] at hf; cases hf
  | some tree =>
    rw [htr] at hf
    simp only at hf
    by_cases hp : p = "/"
    · rw [if_pos hp] at hf
      cases hf
    · rw [if_neg hp] at hf
      exact router.findWalk_error tree (hr m tree htr).2.2 _ f hf

theorem okPath_no_empty {p : String} (hp : okPath p) (hroot : p ≠ "/") : "" ∉ segsOf p := by
  rcases hp with hp | hp
  · exact absurd hp hroot
  · exact fun hmem => hp "" hmem rfl

end faults

/-- C19: on a router built from the empty one by registrations, for every method, path and
handler: `addRoute` and `findRoute` both return exactly when the path is `"/"` or has only
non-empty segments, and a panic of either is the index-out-of-range panic raised on the
first character of an empty segment of the path (never a slice or nil-dereference panic). -/
theorem C19_faults_only_on_empty_segment {H : Type} (regs : List (Registration H))
    (r : router H) (hr : (newRoute : router H).register regs = .ok r) (m path : String)
    (h : Option H) :
    (okPath path ↔
      ((∃ r', r.addRoute m path h = .ok r') ∧ ∃ res, r.findRoute m path = .ok res)) ∧
    (∀ f, r.addRoute m path h = .error f → f = .indexOutOfRange ∧ "" ∈ segsOf path) ∧
    (∀ f, r.findRoute m path = .error f → f = .indexOutOfRange ∧ "" ∈ segsOf path) := by
  have hwf := router.register_Wf regs _ r router.Wf_newRoute hr
  refine ⟨⟨fun hok => ⟨router.addRoute_total r m path h hok, ?_⟩, ?_⟩,
    fun f hf => router.addRoute_error r m path h f hf,
    fun f hf => router.findRoute_error r hwf m path f hf⟩
  · cases hres : r.findRoute m path with
    | ok res => exact ⟨res, rfl⟩
    | error f =>
      have hmem := (router.findRoute_error r hwf m path f hres).2
      by_cases hroot : path = "/"
      · subst hroot
        unfold router.findRoute at hres
        cases htr : r.trees m with
        | none => rw [htr] at hres; cases hres
        | some t => rw [htr] at hres; simp at hres
      · exact absurd hmem (okPath_no_empty hok hroot)
  · rintro ⟨⟨r', hr'⟩, -⟩
    exact router.addRoute_ok_okPath r r' m path h hr'

/-- C19 witness: on the router of the test, `/home/:7/x` is well formed and both functions
return on it; `/a//b` is not, and `addRoute` panics on it with the index panic, as
`findRoute` does on `/user//x`. -/
theorem C19_faults_only_on_empty_segment_witness :
    (newRoute : router Nat).register testRegs = .ok (routerOf testRegs) ∧
    okPath "/home/:7/x" ∧
    ((∃ r', (routerOf testRegs).addRoute "GET" "/home/:7/x" (some 1) = .ok r') ∧
      ∃ res, (routerOf testRegs).findRoute "GET" "/home/:7/x" = .ok res) ∧
    ¬ okPath "/a//b" ∧
    (routerOf testRegs).findRoute "GET" "/user//x" = .error .indexOutOfRange ∧
    (routerOf testRegs).addRoute "GET" "/a//b" (some 1) = .error .indexOutOfRange := by
  have hC := C19_faults_only_on_empty_segment testRegs (routerOf testRegs) rfl "GET"
    "/home/:7/x" (some 1)
  refine ⟨rfl, by decide, hC.1.mp (by decide), by decide, rfl, ?_⟩
  have hC2 := C19_faults_only_on_empty_segment testRegs (routerOf testRegs) rfl "GET"
    "/a//b" (some 1)
  cases hadd : (routerOf testRegs).addRoute "GET" "/a//b" (some 1) with
  | ok r' => exact absurd (router.addRoute_ok_okPath _ r' _ _ _ hadd) (by decide)
  | error f => rw [(hC2.2.1 f hadd).1]

/-- C20: with `/a/b/c` and `/a/*/d` registered under GET, the registered pattern `/a/*/d`
matches the path `/a/b/d` segment by segment, and `findRoute(GET, "/a/b/d")` returns no
match and found = false: the walk went into the literal child `b`, which has no child `d`,
no param child and no wildcard child, and did not come back to the wildcard sibling of `b`,
under which `d` is registered. -/
theorem C20_no_backtracking :
    (newRoute : router Nat).register greedyRegs = .ok (routerOf greedyRegs) ∧
    patternMatchesSpec (segsOf "/a/*/d") (segsOf "/a/b/d") = true ∧
    (routerOf greedyRegs).findRoute "GET" "/a/b/d" = .ok (none, false) ∧
    router.walkEdges (treeOf (routerOf greedyRegs) "GET") ["a", "b"] =
      some [.lit "a", .lit "b"] ∧
    (∃ d, (routerOf greedyRegs).nodeAt "GET" [.lit "a", .star, .lit "d"] = some d ∧
      d.handler = some 1) :=
  ⟨rfl, by decide, rfl, rfl, _, rfl, rfl⟩

end web_blaster
